import Mathlib

/-!
Verification development for the log-processor worker
(src/lambda/worker/lambda_function.py).

The embedding translates the worker source into Lean:

* redact_sensitive_data — the four ordered re.sub rules, embedded as
  deterministic matchers over List Char.  The Python regexes here are
  backtracking, but for each of the four patterns the backtracking engine
  reduces to the deterministic algorithm implemented below (greedy runs,
  with the domain-dot / TLD-length search of the email rule made explicit).
  Character classes are modelled over ASCII (the repository only processes
  ASCII log text in its interface examples and tests; Unicode digit and
  word categories are out of scope of the model).
* the DynamoDB conditional put (put_item with
  attribute_not_exists(PK) AND attribute_not_exists(SK)) as a conditional
  insert into an association list, with an injected fault channel for
  non-conditional ClientError outcomes (throttling etc.).
* lambda_handler — the per-record batch loop with its counters and its
  exception control flow, as a function into Except: a raised exception is
  modelled as Except.error carrying the error code, the counter state and
  the storage state at the moment of the raise.
* processing_time_sec — the source computes len(text) * 0.05 in binary
  floating point and then round(x, 2); the model computes in exact rational
  arithmetic (multiples of 1/20 are exact 2-decimal values, so the two
  agree for every realistic text length) and models round as round-half-even
  to 2 decimal places, and Decimal as the rational value it denotes.
-/

/-! ## Character classes (ASCII model of the regex classes) -/

/-- Model of the regex class backslash-d over ASCII. -/
def isDigitC (c : Char) : Bool := c.isDigit

/-- Model of the regex word-character class (letters, digits, underscore). -/
def isWordChar (c : Char) : Bool := c.isAlphanum || c == '_'

/-- Word-character test on an optional character; none (string edge) is non-word. -/
def optWord : Option Char → Bool
  | none => false
  | some c => isWordChar c

/-- Model of a word boundary between two adjacent positions. -/
def wordBoundary (a b : Option Char) : Bool := optWord a != optWord b

/-- The email local-part class [A-Za-z0-9._%+-]. -/
def localP (c : Char) : Bool :=
  c.isAlphanum || c == '.' || c == '_' || c == '%' || c == '+' || c == '-'

/-- The email domain class [A-Za-z0-9.-]. -/
def domainP (c : Char) : Bool := c.isAlphanum || c == '.' || c == '-'

/-- The email TLD class [A-Z|a-z]; note that the class in the source contains
a literal vertical bar. -/
def tldP (c : Char) : Bool := c.isAlpha || c == '|'

/-! ## Fixed-shape phone matchers -/

/-- Match a list of character predicates against the head of a list. -/
def shapeMatch : List (Char → Bool) → List Char → Bool
  | [], _ => true
  | _ :: _, [] => false
  | p :: ps, c :: cs => p c && shapeMatch ps cs

/-- The shape of the 10-digit rule: three digits, hyphen, three digits,
hyphen, four digits. -/
def phone10Shape : List (Char → Bool) :=
  [isDigitC, isDigitC, isDigitC, fun c => c == '-',
   isDigitC, isDigitC, isDigitC, fun c => c == '-',
   isDigitC, isDigitC, isDigitC, isDigitC]

/-- The shape of the 7-digit rule: three digits, hyphen, four digits. -/
def phone7Shape : List (Char → Bool) :=
  [isDigitC, isDigitC, isDigitC, fun c => c == '-',
   isDigitC, isDigitC, isDigitC, isDigitC]

/-- Matcher for the rule-1 pattern of three digits, hyphen, three digits,
hyphen, four digits; returns the consumed length. -/
def matchPhone10 (s : List Char) : Option Nat :=
  if shapeMatch phone10Shape s then some 12 else none

/-- Matcher for the rule-2 pattern of three digits, hyphen, four digits. -/
def matchPhone7 (s : List Char) : Option Nat :=
  if shapeMatch phone7Shape s then some 8 else none

/-! ## IPv4-shape matcher -/

/-- One group of the IP rule: one to three digits followed by a literal dot.
The quantifier is greedy, but since every shorter split leaves a digit where
the dot is required, the only viable parse takes the whole digit run, so the
group is deterministic: the leading digit run must have length 1 to 3 and be
followed by a dot. -/
def grpDot (s : List Char) : Option Nat :=
  let r := (s.takeWhile isDigitC).length
  if 1 ≤ r ∧ r ≤ 3 ∧ (s.drop r).head? = some '.' then some (r + 1) else none

/-- Matcher for the rule-3 pattern of four dot-separated groups of one to
three digits.  The final group is greedy with no following constraint, so it
takes min 3 of the leading digit run. -/
def matchIp (s : List Char) : Option Nat :=
  match grpDot s with
  | none => none
  | some a =>
    match grpDot (s.drop a) with
    | none => none
    | some b =>
      match grpDot (s.drop (a + b)) with
      | none => none
      | some c =>
        let t := ((s.drop (a + b + c)).takeWhile isDigitC).length
        if 1 ≤ t then some (a + b + c + min t 3) else none

/-! ## Email matcher -/

/-- Search for the TLD length: the TLD quantifier is greedy, so lengths are
tried longest first; the argument list is the reversed TLD-class run, and the
search peels the last character off while the trailing word boundary fails.
A length below 2 is not allowed. -/
def tldSearch : Option Char → List Char → Option Nat
  | _, [] => none
  | next, c :: rest =>
    if 2 ≤ rest.length + 1 ∧ wordBoundary (some c) next then some (rest.length + 1)
    else tldSearch (some c) rest

/-- Dot positions inside the domain-class run that can terminate the domain
part (the domain needs at least one character, so position 0 is excluded),
in descending order because the domain quantifier is greedy. -/
def dotPositions (d : List Char) : List Nat :=
  ((List.range d.length).filter (fun k => 1 ≤ k ∧ d.get? k = some '.')).reverse

/-- Search over the candidate domain-terminating dots (descending); for each,
the TLD run is the TLD-class run after the dot (it may extend beyond the
domain-class run, since the vertical bar is in the TLD class but not in the
domain class). Returns the consumed length after the at-sign. -/
def domainSearch (rest : List Char) : List Nat → Option Nat
  | [] => none
  | k :: ks =>
    let tRun := (rest.drop (k + 1)).takeWhile tldP
    let next := (rest.drop (k + 1 + tRun.length)).head?
    match tldSearch next tRun.reverse with
    | some m => some (k + 1 + m)
    | none => domainSearch rest ks

/-- Matcher for the rule-4 email pattern, word-boundary anchored on both
sides; prev is the character before the match position (none at the string
start).  The local part is deterministic (the at-sign is not in the local
class, so only the maximal run can precede it); the domain and TLD searches
implement the greedy backtracking. -/
def matchEmail (prev : Option Char) (s : List Char) : Option Nat :=
  let l := (s.takeWhile localP).length
  if l = 0 then none
  else if wordBoundary prev s.head? = false then none
  else
    match (s.drop l).head? with
    | some '@' =>
      let rest := s.drop (l + 1)
      let d := rest.takeWhile domainP
      if d.length = 0 then none
      else
        match domainSearch rest (dotPositions d) with
        | some dm => some (l + 1 + dm)
        | none => none
    | _ => none

/-! ## The substitution driver (re.sub) -/

/-- Left-to-right scan of re.sub for a context-free matcher: at each position
try the matcher; on success emit the token and continue after the match, else
emit the character and advance one.  Fuel bounds the recursion; it is set to
the list length at every call site, which suffices because every matcher
consumes at least one character. -/
def runSub (m : List Char → Option Nat) (tok : List Char) : Nat → List Char → List Char
  | 0, s => s
  | _ + 1, [] => []
  | fuel + 1, c :: rest =>
    match m (c :: rest) with
    | some n => tok ++ runSub m tok fuel ((c :: rest).drop n)
    | none => c :: runSub m tok fuel rest

/-- The re.sub scan for the email rule, threading the previous character of
the original string for the leading word boundary (replacements do not affect
the matching context in re.sub, so after a match the previous character is
the last consumed original character). -/
def runSub4 (tok : List Char) : Nat → Option Char → List Char → List Char
  | 0, _, s => s
  | _ + 1, _, [] => []
  | fuel + 1, prev, c :: rest =>
    match matchEmail prev (c :: rest) with
    | some n =>
      tok ++ runSub4 tok fuel (((c :: rest).take n).getLast?) ((c :: rest).drop n)
    | none => c :: runSub4 tok fuel (some c) rest

/-- The token [REDACTED] of the two phone rules. -/
def redTok : List Char := "[REDACTED]".data

/-- The token [IP_REDACTED] of the IP rule. -/
def ipTok : List Char := "[IP_REDACTED]".data

/-- The token [EMAIL_REDACTED] of the email rule. -/
def emailTok : List Char := "[EMAIL_REDACTED]".data

/-- The four ordered substitution rules of redact_sensitive_data, over
character lists: 10-digit phones, then 7-digit phones, then IPv4 shapes,
then emails. -/
def redactList (s : List Char) : List Char :=
  let t1 := runSub matchPhone10 redTok s.length s
  let t2 := runSub matchPhone7 redTok t1.length t1
  let t3 := runSub matchIp ipTok t2.length t2
  runSub4 emailTok t3.length none t3

/-- Embedding of redact_sensitive_data from the worker source. -/
def redact_sensitive_data (text : String) : String :=
  String.mk (redactList text.data)

example : redact_sensitive_data "Call 555-0123 or 555-123-4567" =
    "Call [REDACTED] or [REDACTED]" := by decide

example : redact_sensitive_data "from 192.168.1.100 ok" = "from [IP_REDACTED] ok" := by
  decide

example : redact_sensitive_data "User john.doe@example.com logged in" =
    "User [EMAIL_REDACTED] logged in" := by decide

example : redact_sensitive_data "a@b.cde@f.gh" = "[EMAIL_REDACTED]@f.gh" := by decide

example : redact_sensitive_data "Order ID: 555-12" = "Order ID: 555-12" := by decide

/-! ## Exact-decimal rounding (round(x, 2) and Decimal) -/

/-- Round a rational to the nearest integer, ties to even (the rounding of
Python round). -/
def nearestHalfEven (x : ℚ) : ℤ :=
  let f := ⌊x⌋
  let r := x - f
  if r < 1 / 2 then f
  else if 1 / 2 < r then f + 1
  else if f % 2 = 0 then f else f + 1

/-- Round a rational to 2 decimal places, ties to even: the model of
round(x, 2).  The source computes the argument in binary floating point;
the model computes it exactly, which coincides for every realistic text
length since multiples of one twentieth are exact 2-decimal values. -/
def round2 (x : ℚ) : ℚ := (nearestHalfEven (x * 100) : ℚ) / 100

/-! ## Data model: messages, stored items, storage -/

/-- The normalized queue message shape read by the worker (field names of the
source: the ingestion timestamp travels under the key timestamp). -/
structure Message where
  tenant_id : String
  log_id : String
  text : String
  source : String
  timestamp : String
deriving DecidableEq, Repr

/-- The item written by table.put_item in the worker. -/
structure Item where
  PK : String
  SK : String
  tenant_id : String
  log_id : String
  source : String
  original_text : String
  modified_data : String
  ingested_at : String
  processed_at : String
  text_length : Nat
  processing_time_sec : ℚ
deriving DecidableEq, Repr

/-- The item the worker builds for a message; now is the value of
datetime.now at processing time.  processing_time is len(text) * 0.05,
rounded to 2 places and stored as an exact decimal. -/
def mkItem (m : Message) (now : String) : Item :=
  { PK := "TENANT#" ++ m.tenant_id
    SK := "LOG#" ++ m.log_id
    tenant_id := m.tenant_id
    log_id := m.log_id
    source := m.source
    original_text := m.text
    modified_data := redact_sensitive_data m.text
    ingested_at := m.timestamp
    processed_at := now
    text_length := m.text.length
    processing_time_sec := round2 ((m.text.length : ℚ) * (5 / 100)) }

/-- The DynamoDB table keyed by (PK, SK), as an association list; new entries
are prepended. -/
def Storage : Type := List ((String × String) × Item)

instance : DecidableEq Storage := by
  unfold Storage
  infer_instance

/-- Lookup of the item stored under a key. -/
def Storage.get (s : Storage) (k : String × String) : Option Item :=
  (s.find? (fun e => e.1 == k)).map (fun e => e.2)

/-- Number of entries stored under a key. -/
def Storage.countKey (s : Storage) (k : String × String) : Nat :=
  (s.filter (fun e => e.1 == k)).length

/-- Model of table.put_item with the condition
attribute_not_exists(PK) AND attribute_not_exists(SK): if an item already
exists under the key the call fails with ConditionalCheckFailedException,
else the item is inserted.  fault injects any other ClientError (throttling
etc.) raised by the storage layer for this call, carrying its error code. -/
def put_item (s : Storage) (fault : Option String) (it : Item) :
    Except String Storage :=
  match fault with
  | some code => .error code
  | none =>
    match s.get (it.PK, it.SK) with
    | some _ => .error "ConditionalCheckFailedException"
    | none => .ok (((it.PK, it.SK), it) :: s)

/-- The two non-error outcomes of the persistence step. -/
inductive Outcome where
  | Stored
  | DuplicateSkipped
deriving DecidableEq, Repr

/-- The persistence step of the worker for one well-formed message: build the
item, attempt the conditional put, and classify the outcome exactly as the
inner try/except of the source does: success is Stored; a ClientError with
code ConditionalCheckFailedException is DuplicateSkipped and leaves storage
untouched; any other ClientError propagates with its code. -/
def store (s : Storage) (fault : Option String) (m : Message) (now : String) :
    Except String (Outcome × Storage) :=
  match put_item s fault (mkItem m now) with
  | .ok s1 => .ok (.Stored, s1)
  | .error code =>
    if code = "ConditionalCheckFailedException" then .ok (.DuplicateSkipped, s)
    else .error code

/-! ## The batch loop -/

/-- One delivered envelope, together with the environment of its processing:
body none models a body on which json.loads raises JSONDecodeError; body
some obj models a parsed JSON object as an association list of string fields
(a missing required field raises KeyError).  fault is the injected storage
fault for the put of this record, and now the processing timestamp. -/
structure RecordInput where
  body : Option (List (String × String))
  fault : Option String
  now : String

/-- Field lookup in a parsed JSON object. -/
def getField (obj : List (String × String)) (k : String) : Option String :=
  (obj.find? (fun p => p.1 == k)).map (fun p => p.2)

/-- Reading the five required fields of a message; none models the KeyError
raised on the first missing field. -/
def parseMessage (obj : List (String × String)) : Option Message :=
  match getField obj "tenant_id", getField obj "log_id", getField obj "text",
      getField obj "source", getField obj "timestamp" with
  | some a, some b, some c, some d, some e => some ⟨a, b, c, d, e⟩
  | _, _, _, _, _ => none

/-- True when processing the envelope raises JSONDecodeError or KeyError. -/
def RecordInput.isMalformed (r : RecordInput) : Bool :=
  match r.body with
  | none => true
  | some obj => (parseMessage obj).isNone

/-- The three counters of the loop. -/
structure Counters where
  processed : Nat
  skipped : Nat
  errors : Nat
deriving DecidableEq, Repr

/-- The for loop of lambda_handler.  JSONDecodeError and KeyError increment
errors and continue.  A non-duplicate ClientError increments errors in the
inner except, is re-raised, is caught again by the outer except Exception
which increments errors once more, and is re-raised out of the handler: the
error result carries the exception code together with the counter and
storage state at the raise.  rest is never touched on that path. -/
def runBatch (s : Storage) (c : Counters) :
    List RecordInput → Except (String × Counters × Storage) (Counters × Storage)
  | [] => .ok (c, s)
  | r :: rest =>
    match r.body with
    | none => runBatch s { c with errors := c.errors + 1 } rest
    | some obj =>
      match parseMessage obj with
      | none => runBatch s { c with errors := c.errors + 1 } rest
      | some msg =>
        match store s r.fault msg r.now with
        | .ok (.Stored, s1) => runBatch s1 { c with processed := c.processed + 1 } rest
        | .ok (.DuplicateSkipped, s1) =>
          runBatch s1 { c with skipped := c.skipped + 1 } rest
        | .error code => .error (code, { c with errors := c.errors + 2 }, s)

/-- The result dictionary of lambda_handler. -/
structure BatchResult where
  processed : Nat
  skipped_duplicates : Nat
  errors : Nat
  total : Nat
deriving DecidableEq, Repr

/-- The response of lambda_handler. -/
structure Response where
  statusCode : Nat
  body : BatchResult
deriving DecidableEq, Repr

/-- Embedding of lambda_handler: run the loop over the delivered records
starting from zero counters; on normal completion return status 200 with the
aggregate counts, where total is the number of delivered envelopes; a raised
exception propagates. -/
def lambda_handler (s : Storage) (records : List RecordInput) :
    Except (String × Counters × Storage) (Response × Storage) :=
  match runBatch s ⟨0, 0, 0⟩ records with
  | .ok (c, s1) =>
    .ok ({ statusCode := 200,
           body := { processed := c.processed, skipped_duplicates := c.skipped,
                     errors := c.errors, total := records.length } }, s1)
  | .error e => .error e

/-! ## Storage lemmas -/

/-- The composite key the worker derives for a message. -/
def keyOf (m : Message) : String × String :=
  ("TENANT#" ++ m.tenant_id, "LOG#" ++ m.log_id)

theorem mkItem_key (m : Message) (now : String) :
    ((mkItem m now).PK, (mkItem m now).SK) = keyOf m := rfl

theorem Storage.get_cons_self (s : Storage) (k : String × String) (it : Item) :
    Storage.get ((k, it) :: s) k = some it := by
  simp [Storage.get, List.find?]

theorem Storage.get_cons_ne (s : Storage) (k k1 : String × String) (it : Item)
    (h : k1 ≠ k) : Storage.get ((k1, it) :: s) k = Storage.get s k := by
  simp only [Storage.get, List.find?]
  have : ((k1, it).1 == k) = false := by
    simp only [beq_eq_false_iff_ne, ne_eq]
    exact h
  simp [this]

theorem Storage.countKey_eq_zero (s : Storage) (k : String × String)
    (h : Storage.get s k = none) : Storage.countKey s k = 0 := by
  unfold Storage.get at h
  have hf : s.find? (fun e => e.1 == k) = none := by
    cases hx : s.find? (fun e => e.1 == k) with
    | none => rfl
    | some v => rw [hx] at h; simp at h
  rw [List.find?_eq_none] at hf
  unfold Storage.countKey
  have : s.filter (fun e => e.1 == k) = [] := by
    rw [List.filter_eq_nil_iff]
    exact hf
  rw [this]
  rfl

theorem Storage.countKey_cons_self (s : Storage) (k : String × String) (it : Item) :
    Storage.countKey ((k, it) :: s) k = Storage.countKey s k + 1 := by
  simp [Storage.countKey, List.filter]

theorem tenantPrefix_inj {a b : String}
    (h : ("TENANT#" ++ a : String) = "TENANT#" ++ b) : a = b := by
  have hd := congrArg String.data h
  simp only [String.data_append] at hd
  have h2 := List.append_cancel_left hd
  cases a; cases b
  simp only at h2
  rw [h2]

/-- C1. First store of a fresh key: the conditional put succeeds. -/
theorem store_fresh (s : Storage) (m : Message) (n1 : String)
    (h : Storage.get s (keyOf m) = none) :
    store s none m n1 = .ok (.Stored, (keyOf m, mkItem m n1) :: s) := by
  unfold store put_item
  rw [show ((mkItem m n1).PK, (mkItem m n1).SK) = keyOf m from rfl, h]

/-- Second store of the same key: the condition fails and nothing changes. -/
theorem store_dup (s : Storage) (m : Message) (it : Item) (n2 : String)
    (h : Storage.get s (keyOf m) = some it) :
    store s none m n2 = .ok (.DuplicateSkipped, s) := by
  unfold store put_item
  rw [show ((mkItem m n2).PK, (mkItem m n2).SK) = keyOf m from rfl, h]
  simp

/-- C1: for any record, storing it twice (same tenant_id and log_id, any
processing timestamps) yields Stored then DuplicateSkipped; afterwards the
storage holds exactly one entry under the key TENANT#tenant_id, LOG#log_id,
it is exactly what the first call wrote, and the second call returns the
storage of the first call unchanged, so the stored processed_at stays the
one of the first call. -/
theorem c1_store_idempotent (s : Storage) (m : Message) (n1 n2 : String)
    (h : Storage.get s (keyOf m) = none) :
    store s none m n1 = .ok (.Stored, (keyOf m, mkItem m n1) :: s) ∧
    store ((keyOf m, mkItem m n1) :: s) none m n2 =
      .ok (.DuplicateSkipped, (keyOf m, mkItem m n1) :: s) ∧
    Storage.get ((keyOf m, mkItem m n1) :: s) (keyOf m) = some (mkItem m n1) ∧
    Storage.countKey ((keyOf m, mkItem m n1) :: s) (keyOf m) = 1 := by
  refine ⟨store_fresh s m n1 h, ?_, ?_, ?_⟩
  · exact store_dup _ m (mkItem m n1) n2 (Storage.get_cons_self s _ _)
  · exact Storage.get_cons_self s _ _
  · rw [Storage.countKey_cons_self, Storage.countKey_eq_zero s _ h]

/-- Witness for C1 at a concrete record and empty storage. -/
theorem c1_store_idempotent_witness :
    store [] none ⟨"acme", "log-1", "hi", "json", "T0"⟩ "T1" =
      .ok (.Stored, [(keyOf ⟨"acme", "log-1", "hi", "json", "T0"⟩,
        mkItem ⟨"acme", "log-1", "hi", "json", "T0"⟩ "T1")]) ∧
    store [(keyOf ⟨"acme", "log-1", "hi", "json", "T0"⟩,
        mkItem ⟨"acme", "log-1", "hi", "json", "T0"⟩ "T1")] none
        ⟨"acme", "log-1", "hi", "json", "T0"⟩ "T2" =
      .ok (.DuplicateSkipped, [(keyOf ⟨"acme", "log-1", "hi", "json", "T0"⟩,
        mkItem ⟨"acme", "log-1", "hi", "json", "T0"⟩ "T1")]) ∧
    Storage.get [(keyOf ⟨"acme", "log-1", "hi", "json", "T0"⟩,
        mkItem ⟨"acme", "log-1", "hi", "json", "T0"⟩ "T1")]
        (keyOf ⟨"acme", "log-1", "hi", "json", "T0"⟩) =
      some (mkItem ⟨"acme", "log-1", "hi", "json", "T0"⟩ "T1") ∧
    Storage.countKey [(keyOf ⟨"acme", "log-1", "hi", "json", "T0"⟩,
        mkItem ⟨"acme", "log-1", "hi", "json", "T0"⟩ "T1")]
        (keyOf ⟨"acme", "log-1", "hi", "json", "T0"⟩) = 1 := by
  have h : Storage.get ([] : Storage)
      (keyOf ⟨"acme", "log-1", "hi", "json", "T0"⟩) = none := rfl
  simpa using c1_store_idempotent [] ⟨"acme", "log-1", "hi", "json", "T0"⟩ "T1" "T2" h

/-- C4: two records with the same log_id under distinct tenant_ids map to
distinct composite keys, both stores yield Stored, and afterwards the
storage holds two distinct entries, one under each key, neither overwriting
or suppressing the other. -/
theorem c4_tenant_isolation (s : Storage) (mA mB : Message) (nA nB : String)
    (hT : mA.tenant_id ≠ mB.tenant_id) (_hL : mA.log_id = mB.log_id)
    (hA : Storage.get s (keyOf mA) = none)
    (hB : Storage.get s (keyOf mB) = none) :
    keyOf mA ≠ keyOf mB ∧
    store s none mA nA = .ok (.Stored, (keyOf mA, mkItem mA nA) :: s) ∧
    store ((keyOf mA, mkItem mA nA) :: s) none mB nB =
      .ok (.Stored, (keyOf mB, mkItem mB nB) :: (keyOf mA, mkItem mA nA) :: s) ∧
    Storage.get ((keyOf mB, mkItem mB nB) :: (keyOf mA, mkItem mA nA) :: s)
      (keyOf mA) = some (mkItem mA nA) ∧
    Storage.get ((keyOf mB, mkItem mB nB) :: (keyOf mA, mkItem mA nA) :: s)
      (keyOf mB) = some (mkItem mB nB) := by
  have hkey : keyOf mA ≠ keyOf mB := by
    intro hk
    exact hT (tenantPrefix_inj (congrArg Prod.fst hk))
  refine ⟨hkey, store_fresh s mA nA hA, ?_, ?_, ?_⟩
  · have hgetB : Storage.get ((keyOf mA, mkItem mA nA) :: s) (keyOf mB) = none := by
      rw [Storage.get_cons_ne s _ _ _ hkey]
      exact hB
    exact store_fresh _ mB nB hgetB
  · rw [Storage.get_cons_ne _ _ _ _ hkey.symm]
    exact Storage.get_cons_self s _ _
  · exact Storage.get_cons_self _ _ _

/-- Witness for C4: tenants A and B share log_id X, empty initial storage. -/
theorem c4_tenant_isolation_witness :
    keyOf ⟨"A", "X", "a", "json", "T0"⟩ ≠ keyOf ⟨"B", "X", "b", "json", "T0"⟩ ∧
    store [] none ⟨"A", "X", "a", "json", "T0"⟩ "T1" =
      .ok (.Stored, [(keyOf ⟨"A", "X", "a", "json", "T0"⟩,
        mkItem ⟨"A", "X", "a", "json", "T0"⟩ "T1")]) ∧
    store [(keyOf ⟨"A", "X", "a", "json", "T0"⟩,
        mkItem ⟨"A", "X", "a", "json", "T0"⟩ "T1")] none
        ⟨"B", "X", "b", "json", "T0"⟩ "T2" =
      .ok (.Stored, [(keyOf ⟨"B", "X", "b", "json", "T0"⟩,
        mkItem ⟨"B", "X", "b", "json", "T0"⟩ "T2"),
        (keyOf ⟨"A", "X", "a", "json", "T0"⟩,
        mkItem ⟨"A", "X", "a", "json", "T0"⟩ "T1")]) ∧
    Storage.get [(keyOf ⟨"B", "X", "b", "json", "T0"⟩,
        mkItem ⟨"B", "X", "b", "json", "T0"⟩ "T2"),
        (keyOf ⟨"A", "X", "a", "json", "T0"⟩,
        mkItem ⟨"A", "X", "a", "json", "T0"⟩ "T1")]
        (keyOf ⟨"A", "X", "a", "json", "T0"⟩) =
      some (mkItem ⟨"A", "X", "a", "json", "T0"⟩ "T1") ∧
    Storage.get [(keyOf ⟨"B", "X", "b", "json", "T0"⟩,
        mkItem ⟨"B", "X", "b", "json", "T0"⟩ "T2"),
        (keyOf ⟨"A", "X", "a", "json", "T0"⟩,
        mkItem ⟨"A", "X", "a", "json", "T0"⟩ "T1")]
        (keyOf ⟨"B", "X", "b", "json", "T0"⟩) =
      some (mkItem ⟨"B", "X", "b", "json", "T0"⟩ "T2") := by
  have h := c4_tenant_isolation [] ⟨"A", "X", "a", "json", "T0"⟩
    ⟨"B", "X", "b", "json", "T0"⟩ "T1" "T2" (by decide) rfl rfl rfl
  simpa using h

/-! ## Concrete batch fixtures -/

/-- A well-formed parsed body for tenant t and log id l with empty text. -/
def okBody (t l : String) : List (String × String) :=
  [("tenant_id", t), ("log_id", l), ("text", ""), ("source", "json"),
   ("timestamp", "T0")]

/-- A well-formed record with no injected storage fault. -/
def okRec (t l : String) : RecordInput := ⟨some (okBody t l), none, "P0"⟩

/-- A well-formed record whose put raises a throttling ClientError. -/
def faultRec (t l : String) : RecordInput :=
  ⟨some (okBody t l), some "ThrottlingException", "P0"⟩

/-- A record whose body fails to parse as JSON. -/
def badRec : RecordInput := ⟨none, none, "P0"⟩

/-- The message parsed from okBody. -/
def okMsg (t l : String) : Message := ⟨t, l, "", "json", "T0"⟩

/-- C2: a non-duplicate storage error aborts the batch: when the head record
parses and its put raises a ClientError whose code is not
ConditionalCheckFailedException, the invocation re-raises at once with the
storage as accumulated so far (prior writes stay committed, the failing
record writes nothing) and the error counter incremented (twice, once in the
inner ClientError handler and once in the outer except-Exception handler);
the remaining records are not attempted, which the statement expresses by
quantifying over an arbitrary tail whose contents never influence the
result.  In particular, for a batch of three where record 2 raises a
throttling error, the handler raises and storage holds exactly the write of
record 1; record 3 was never attempted. -/
theorem c2_transient_abort :
    (∀ (s : Storage) (c : Counters) (r : RecordInput) (rest : List RecordInput)
      (obj : List (String × String)) (msg : Message) (code : String),
      r.body = some obj → parseMessage obj = some msg → r.fault = some code →
      code ≠ "ConditionalCheckFailedException" →
      runBatch s c (r :: rest) = .error (code, { c with errors := c.errors + 2 }, s)) ∧
    lambda_handler [] [okRec "A" "1", faultRec "A" "2", okRec "A" "3"] =
      .error ("ThrottlingException", ⟨1, 0, 2⟩,
        [(keyOf (okMsg "A" "1"), mkItem (okMsg "A" "1") "P0")]) := by
  constructor
  · intro s c r rest obj msg code hb hp hf hcode
    simp only [runBatch, hb, hp, store, put_item, hf]
    simp [hcode]
  · rfl

/-- Witness for the universally quantified part of C2 at a one-record batch
with a throttling fault and a nonempty tail, raising with untouched storage. -/
theorem c2_transient_abort_witness :
    runBatch [] ⟨0, 0, 0⟩ [faultRec "W" "9", okRec "W" "10"] =
      .error ("ThrottlingException", ⟨0, 0, 2⟩, []) := by
  exact c2_transient_abort.1 [] ⟨0, 0, 0⟩ (faultRec "W" "9") [okRec "W" "10"]
    (okBody "W" "9") (okMsg "W" "9") "ThrottlingException" rfl rfl rfl (by decide)

/-- C3: a malformed record (unparseable body, or a body missing one of the
five required fields) increments errors and the loop continues with the next
record, without propagating; in particular a batch of three with record 2
malformed returns processed 2, errors 1, total 3, and storage received the
writes of records 1 and 3. -/
theorem c3_malformed_isolated :
    (∀ (s : Storage) (c : Counters) (r : RecordInput) (rest : List RecordInput),
      r.isMalformed = true →
      runBatch s c (r :: rest) = runBatch s { c with errors := c.errors + 1 } rest) ∧
    lambda_handler [] [okRec "A" "1", badRec, okRec "A" "3"] =
      .ok ({ statusCode := 200,
             body := { processed := 2, skipped_duplicates := 0, errors := 1,
                       total := 3 } },
        [(keyOf (okMsg "A" "3"), mkItem (okMsg "A" "3") "P0"),
         (keyOf (okMsg "A" "1"), mkItem (okMsg "A" "1") "P0")]) := by
  constructor
  · intro s c r rest h
    unfold RecordInput.isMalformed at h
    cases hb : r.body with
    | none => simp only [runBatch, hb]
    | some obj =>
      rw [hb] at h
      simp only [Option.isNone_iff_eq_none] at h
      simp only [runBatch, hb, h]
  · rfl

/-- Witness for the universally quantified part of C3: a malformed head is
counted as an error and the loop moves on. -/
theorem c3_malformed_isolated_witness :
    runBatch [] ⟨0, 0, 0⟩ [badRec, okRec "W" "11"] =
      runBatch [] ⟨0, 0, 1⟩ [okRec "W" "11"] := by
  exact c3_malformed_isolated.1 [] ⟨0, 0, 0⟩ badRec [okRec "W" "11"] rfl

/-- On a normal return of the loop, the three counters grow by exactly the
number of records processed. -/
theorem runBatch_counts (records : List RecordInput) :
    ∀ (s : Storage) (c c1 : Counters) (s1 : Storage),
      runBatch s c records = .ok (c1, s1) →
      c1.processed + c1.skipped + c1.errors =
        c.processed + c.skipped + c.errors + records.length := by
  induction records with
  | nil =>
    intro s c c1 s1 h
    simp only [runBatch] at h
    cases h
    simp
  | cons r rest ih =>
    intro s c c1 s1 h
    cases hb : r.body with
    | none =>
      simp only [runBatch, hb] at h
      have := ih s _ c1 s1 h
      simp only [List.length_cons] at *
      omega
    | some obj =>
      cases hp : parseMessage obj with
      | none =>
        simp only [runBatch, hb, hp] at h
        have := ih s _ c1 s1 h
        simp only [List.length_cons] at *
        omega
      | some msg =>
        cases hs : store s r.fault msg r.now with
        | error code => simp only [runBatch, hb, hp, hs] at h; cases h
        | ok v =>
          obtain ⟨o, s2⟩ := v
          cases o with
          | Stored =>
            simp only [runBatch, hb, hp, hs] at h
            have := ih s2 _ c1 s1 h
            simp only [List.length_cons] at *
            omega
          | DuplicateSkipped =>
            simp only [runBatch, hb, hp, hs] at h
            have := ih s2 _ c1 s1 h
            simp only [List.length_cons] at *
            omega

/-- C9: whenever the handler returns normally, the counters partition the
batch exactly (processed plus skipped_duplicates plus errors equals total,
which equals the number of delivered envelopes), and the statusCode is 200
even when errors is positive. -/
theorem c9_success_partition (s : Storage) (records : List RecordInput)
    (resp : Response) (s1 : Storage)
    (h : lambda_handler s records = .ok (resp, s1)) :
    resp.statusCode = 200 ∧
    resp.body.processed + resp.body.skipped_duplicates + resp.body.errors =
      resp.body.total ∧
    resp.body.total = records.length := by
  unfold lambda_handler at h
  cases hr : runBatch s ⟨0, 0, 0⟩ records with
  | error e => rw [hr] at h; cases h
  | ok v =>
    obtain ⟨c, s2⟩ := v
    have hc := runBatch_counts records s ⟨0, 0, 0⟩ c s2 hr
    rw [hr] at h
    cases h
    exact ⟨rfl, by simpa using hc, rfl⟩

/-- Witness for C9: a batch consisting entirely of malformed records still
returns a 200 response whose counters (errors equal to total, two of two)
partition the batch. -/
theorem c9_success_partition_witness :
    (({ statusCode := 200,
        body := { processed := 0, skipped_duplicates := 0, errors := 2,
                  total := 2 } } : Response).statusCode = 200 ∧
     ({ statusCode := 200,
        body := { processed := 0, skipped_duplicates := 0, errors := 2,
                  total := 2 } } : Response).body.processed +
       ({ statusCode := 200,
          body := { processed := 0, skipped_duplicates := 0, errors := 2,
                    total := 2 } } : Response).body.skipped_duplicates +
       ({ statusCode := 200,
          body := { processed := 0, skipped_duplicates := 0, errors := 2,
                    total := 2 } } : Response).body.errors =
       ({ statusCode := 200,
          body := { processed := 0, skipped_duplicates := 0, errors := 2,
                    total := 2 } } : Response).body.total ∧
     ({ statusCode := 200,
        body := { processed := 0, skipped_duplicates := 0, errors := 2,
                  total := 2 } } : Response).body.total =
       [badRec, badRec].length) :=
  c9_success_partition [] [badRec, badRec] _ [] rfl

/-- C8 counterexample: an invocation aborted by a transient storage error
raises instead of returning the aggregate counts, so the claim that the
counts (with total equal to the number of envelopes) are returned even when
the loop aborts fails on this one-record batch. -/
theorem c8_counterexample :
    lambda_handler [] [faultRec "A" "1"] =
      .error ("ThrottlingException", ⟨0, 0, 2⟩, []) ∧
    (lambda_handler [] [faultRec "A" "1"]).isOk = false := ⟨rfl, rfl⟩

/-- C8 (amended): whenever the handler returns (which happens exactly when
no transient storage error aborted the loop), it returns the aggregate
counts and total equals the number of envelopes received in the invocation;
an aborted invocation instead propagates the storage exception and returns
no counts. -/
theorem c8_total_on_return (s : Storage) (records : List RecordInput)
    (resp : Response) (s1 : Storage)
    (h : lambda_handler s records = .ok (resp, s1)) :
    resp.body.total = records.length := by
  unfold lambda_handler at h
  cases hr : runBatch s ⟨0, 0, 0⟩ records with
  | error e => rw [hr] at h; cases h
  | ok v =>
    obtain ⟨c, s2⟩ := v
    rw [hr] at h
    cases h
    rfl

/-- Witness for the amended C8 at a concrete two-record batch. -/
theorem c8_total_on_return_witness :
    ({ statusCode := 200,
       body := { processed := 1, skipped_duplicates := 0, errors := 1,
                 total := 2 } } : Response).body.total =
      [okRec "W8" "1", badRec].length :=
  c8_total_on_return [] [okRec "W8" "1", badRec] _
    [(keyOf (okMsg "W8" "1"), mkItem (okMsg "W8" "1") "P0")] rfl

/-! ## Text metrics -/

theorem nearestHalfEven_intCast (k : ℤ) : nearestHalfEven (k : ℚ) = k := by
  unfold nearestHalfEven
  simp only [Int.floor_intCast, sub_self]
  norm_num

/-- Rounding len * 0.05 to two decimals is exact: every multiple of one
twentieth is a 2-decimal value. -/
theorem round2_twentieth (n : ℕ) :
    round2 ((n : ℚ) * (5 / 100)) = (n : ℚ) / 20 := by
  unfold round2
  have h : ((n : ℚ) * (5 / 100)) * 100 = ((5 * (n : ℤ) : ℤ) : ℚ) := by
    push_cast
    ring
  rw [h, nearestHalfEven_intCast]
  push_cast
  ring

/-- C7: every stored item records text_length equal to the character count
of the text, and processing_time_sec equal to round(0.05 times text_length, 2)
as the exact decimal value text_length / 20; in particular a text of length
20 stores the exact decimal 1.00 and an empty text stores the exact decimal
0. -/
theorem c7_text_metrics :
    (∀ (m : Message) (now : String),
      (mkItem m now).text_length = m.text.length ∧
      (mkItem m now).processing_time_sec = (m.text.length : ℚ) / 20) ∧
    (∀ (m : Message) (now : String), m.text.length = 20 →
      (mkItem m now).processing_time_sec = 1) ∧
    (∀ (m : Message) (now : String), m.text = "" →
      (mkItem m now).processing_time_sec = 0) := by
  refine ⟨fun m now => ⟨rfl, round2_twentieth m.text.length⟩, ?_, ?_⟩
  · intro m now h
    rw [show (mkItem m now).processing_time_sec =
      round2 ((m.text.length : ℚ) * (5 / 100)) from rfl, h,
      round2_twentieth 20]
    norm_num
  · intro m now h
    have h0 : m.text.length = 0 := by rw [h]; rfl
    rw [show (mkItem m now).processing_time_sec =
      round2 ((m.text.length : ℚ) * (5 / 100)) from rfl, h0]
    have := round2_twentieth 0
    simpa using this

/-- Witness for C7 at a 20-character text and at the empty text. -/
theorem c7_text_metrics_witness :
    (mkItem ⟨"t", "l", "aaaaaaaaaaaaaaaaaaaa", "json", "T0"⟩ "P").text_length = 20 ∧
    (mkItem ⟨"t", "l", "aaaaaaaaaaaaaaaaaaaa", "json", "T0"⟩ "P").processing_time_sec
      = 1 ∧
    (mkItem ⟨"t", "l", "", "json", "T0"⟩ "P").processing_time_sec = 0 := by
  refine ⟨(c7_text_metrics.1 ⟨"t", "l", "aaaaaaaaaaaaaaaaaaaa", "json", "T0"⟩ "P").1, ?_, ?_⟩
  · exact c7_text_metrics.2.1 ⟨"t", "l", "aaaaaaaaaaaaaaaaaaaa", "json", "T0"⟩ "P" rfl
  · exact c7_text_metrics.2.2 ⟨"t", "l", "", "json", "T0"⟩ "P" rfl

/-! ## Match presence predicates -/

/-- Whether a context-free matcher fires at some position of the list. -/
def hasMatch (m : List Char → Option Nat) : List Char → Bool
  | [] => false
  | c :: rest => (m (c :: rest)).isSome || hasMatch m rest

/-- Whether the email matcher fires at some position, threading the previous
character for the leading word boundary; the initial prev is none at a
string start. -/
def hasMatch4 : Option Char → List Char → Bool
  | _, [] => false
  | prev, c :: rest => (matchEmail prev (c :: rest)).isSome || hasMatch4 (some c) rest

theorem runSub_id (m : List Char → Option Nat) (tok : List Char) :
    ∀ (s : List Char) (fuel : Nat), hasMatch m s = false →
      runSub m tok fuel s = s := by
  intro s
  induction s with
  | nil => intro fuel _; cases fuel <;> rfl
  | cons c rest ih =>
    intro fuel h
    simp only [hasMatch] at h
    cases hm : m (c :: rest) with
    | some n => rw [hm] at h; simp at h
    | none =>
      rw [hm] at h
      simp only [Option.isSome_none, Bool.false_or] at h
      cases fuel with
      | zero => rfl
      | succ fuel =>
        simp only [runSub, hm]
        rw [ih fuel h]

theorem runSub4_id (tok : List Char) :
    ∀ (s : List Char) (prev : Option Char) (fuel : Nat),
      hasMatch4 prev s = false → runSub4 tok fuel prev s = s := by
  intro s
  induction s with
  | nil => intro prev fuel _; cases fuel <;> rfl
  | cons c rest ih =>
    intro prev fuel h
    simp only [hasMatch4] at h
    cases hm : matchEmail prev (c :: rest) with
    | some n => rw [hm] at h; simp at h
    | none =>
      rw [hm] at h
      simp only [Option.isSome_none, Bool.false_or] at h
      cases fuel with
      | zero => rfl
      | succ fuel =>
        simp only [runSub4, hm]
        rw [ih (some c) fuel h]

/-- C6: the redaction is the identity on clean text: if no position of the
text matches the 10-digit phone shape, the 7-digit phone shape, the IPv4
shape, or the word-boundary-anchored email shape, then
redact_sensitive_data leaves the text unchanged. -/
theorem c6_clean_text_fixed (t : String)
    (h1 : hasMatch matchPhone10 t.data = false)
    (h2 : hasMatch matchPhone7 t.data = false)
    (h3 : hasMatch matchIp t.data = false)
    (h4 : hasMatch4 none t.data = false) :
    redact_sensitive_data t = t := by
  simp only [redact_sensitive_data, redactList]
  rw [runSub_id _ _ _ _ h1, runSub_id _ _ _ _ h2, runSub_id _ _ _ _ h3,
    runSub4_id _ _ _ _ h4]

/-- Witness for C6: the almost-right shape 555-12 is left untouched. -/
theorem c6_clean_text_fixed_witness :
    hasMatch matchPhone10 "Order ID: 555-12".data = false ∧
    hasMatch matchPhone7 "Order ID: 555-12".data = false ∧
    hasMatch matchIp "Order ID: 555-12".data = false ∧
    hasMatch4 none "Order ID: 555-12".data = false ∧
    redact_sensitive_data "Order ID: 555-12" = "Order ID: 555-12" :=
  ⟨by decide, by decide, by decide, by decide,
   c6_clean_text_fixed "Order ID: 555-12" (by decide) (by decide) (by decide)
     (by decide)⟩

/-- C5: the 10-digit rule runs before the 7-digit rule, so a 10-digit-shaped
number is consumed whole: on the contact example the first rule alone
already produces the fully redacted text, the 7-digit rule finds no leftover
match in it, and the composed redaction yields the same result. -/
theorem c5_redaction_ordering :
    redact_sensitive_data "Contact: 123-456-7890" = "Contact: [REDACTED]" ∧
    runSub matchPhone10 redTok "Contact: 123-456-7890".data.length
      "Contact: 123-456-7890".data = "Contact: [REDACTED]".data ∧
    hasMatch matchPhone7 "Contact: [REDACTED]".data = false := by
  refine ⟨by decide, by decide, by decide⟩

/-! ## Generic scan lemmas for the idempotence development -/

theorem hasMatch_append_iff (m : List Char → Option Nat) (u : List Char) :
    ∀ z : List Char, hasMatch m (u ++ z) = false ↔
      (∀ i, i < u.length → m (u.drop i ++ z) = none) ∧ hasMatch m z = false := by
  induction u with
  | nil => intro z; simp
  | cons c u ih =>
    intro z
    simp only [List.cons_append, hasMatch, Bool.or_eq_false_iff, List.append_eq]
    constructor
    · rintro ⟨h0, h1⟩
      obtain ⟨h2, h3⟩ := (ih z).mp h1
      refine ⟨?_, h3⟩
      intro i hi
      cases i with
      | zero =>
        simp only [List.drop_zero, List.cons_append]
        cases hm : m (c :: (u ++ z)) with
        | none => rfl
        | some k => rw [hm] at h0; simp at h0
      | succ i => exact h2 i (by simpa using hi)
    · rintro ⟨h2, h3⟩
      constructor
      · have := h2 0 (by simp)
        simp only [List.drop_zero, List.cons_append] at this
        simp [this]
      · exact (ih z).mpr ⟨fun i hi => h2 (i + 1) (by simpa using hi), h3⟩

theorem hasMatch_drop (m : List Char → Option Nat) (v : List Char) (n : Nat)
    (h : hasMatch m v = false) : hasMatch m (v.drop n) = false :=
  ((hasMatch_append_iff m (v.take n) (v.drop n)).mp
    (by rwa [List.take_append_drop])).2

/-! ## Shape matcher lemmas -/

theorem shapeMatch_length (pat : List (Char → Bool)) :
    ∀ s : List Char, shapeMatch pat s = true → pat.length ≤ s.length := by
  induction pat with
  | nil => intro s _; simp
  | cons p ps ih =>
    intro s h
    cases s with
    | nil => simp [shapeMatch] at h
    | cons c cs =>
      simp only [shapeMatch, Bool.and_eq_true] at h
      simpa using ih cs h.2

theorem shapeMatch_take (pat : List (Char → Bool)) :
    ∀ s : List Char, shapeMatch pat s = shapeMatch pat (s.take pat.length) := by
  induction pat with
  | nil => intro s; rfl
  | cons p ps ih =>
    intro s
    cases s with
    | nil => rfl
    | cons c cs => simp only [List.length_cons, List.take_succ_cons, shapeMatch, ih cs]

theorem shapeMatch_sat (pat : List (Char → Bool)) :
    ∀ (s : List Char), shapeMatch pat s = true →
      ∀ i (hi : i < pat.length) (hs : i < s.length),
        pat.get ⟨i, hi⟩ (s.get ⟨i, hs⟩) = true := by
  induction pat with
  | nil => intro s _ i hi; simp at hi
  | cons p ps ih =>
    intro s h i hi hs
    cases s with
    | nil => simp [shapeMatch] at h
    | cons c cs =>
      simp only [shapeMatch, Bool.and_eq_true] at h
      cases i with
      | zero => simpa using h.1
      | succ i => simpa using ih cs h.2 i (by simpa using hi) (by simpa using hs)

/-- Every slot of the two phone shapes accepts only digits or hyphens. -/
theorem phoneShape_slots (pat : List (Char → Bool))
    (hpat : pat = phone10Shape ∨ pat = phone7Shape) :
    ∀ p ∈ pat, ∀ c, p c = true → (isDigitC c || c == '-') = true := by
  rcases hpat with h | h <;> subst h <;> intro p hp c hc <;>
    fin_cases hp <;> simp_all

theorem matchPhone10_bound (w : List Char) (n : Nat) (h : matchPhone10 w = some n) :
    1 ≤ n ∧ n ≤ w.length := by
  unfold matchPhone10 at h
  by_cases hs : shapeMatch phone10Shape w = true
  · rw [if_pos hs] at h
    cases h
    have := shapeMatch_length phone10Shape w hs
    simp [phone10Shape] at this
    omega
  · rw [if_neg hs] at h; cases h

theorem matchPhone7_bound (w : List Char) (n : Nat) (h : matchPhone7 w = some n) :
    1 ≤ n ∧ n ≤ w.length := by
  unfold matchPhone7 at h
  by_cases hs : shapeMatch phone7Shape w = true
  · rw [if_pos hs] at h
    cases h
    have := shapeMatch_length phone7Shape w hs
    simp [phone7Shape] at this
    omega
  · rw [if_neg hs] at h; cases h

/-! ## takeWhile decomposition -/

theorem takeWhile_append_split (p : Char → Bool) (u : List Char) :
    ∀ v : List Char, (u ++ v).takeWhile p =
      if (u.takeWhile p).length = u.length then u ++ v.takeWhile p
      else u.takeWhile p := by
  induction u with
  | nil => intro v; simp
  | cons c u ih =>
    intro v
    cases hc : p c with
    | false => simp [List.takeWhile_cons, hc]
    | true =>
      simp only [List.cons_append, List.takeWhile_cons, hc]
      rw [ih v]
      by_cases h : (u.takeWhile p).length = u.length
      · simp [h]
      · simp [h]

theorem takeWhile_full (p : Char → Bool) (u : List Char)
    (h : (u.takeWhile p).length = u.length) : u.takeWhile p = u :=
  (List.takeWhile_prefix p).eq_of_length h

theorem takeWhile_get (p : Char → Bool) (u : List Char) (i : Nat)
    (hi : i < (u.takeWhile p).length) : u[i]? = (u.takeWhile p)[i]? := by
  obtain ⟨t, ht⟩ := List.takeWhile_prefix (l := u) p
  conv_lhs => rw [← ht]
  exact List.getElem?_append_left hi

theorem takeWhile_elem (p : Char → Bool) (u : List Char) (i : Nat)
    (hi : i < (u.takeWhile p).length) (c : Char) (hc : u[i]? = some c) :
    p c = true := by
  rw [takeWhile_get p u i hi] at hc
  have hmem : c ∈ u.takeWhile p := by
    have := List.getElem?_mem hc
    exact this
  exact List.mem_takeWhile_imp hmem

/-- If the character just past the first list blocks the scanned class, the
class run of the appended list is the run of the first list and stays inside
it whenever it does not exhaust it. -/
theorem takeWhile_append_blocked (p : Char → Bool) (u x : List Char) (xc : Char)
    (hx : x.head? = some xc) (hxc : p xc = false)
    (hlt : ((u ++ x).takeWhile p).length ≠ u.length) :
    (u ++ x).takeWhile p = u.takeWhile p ∧
      ((u ++ x).takeWhile p).length < u.length := by
  rw [takeWhile_append_split] at hlt ⊢
  by_cases h : (u.takeWhile p).length = u.length
  · exfalso
    rw [if_pos h] at hlt
    cases x with
    | nil => simp at hx
    | cons a t =>
      simp only [List.head?_cons, Option.some.injEq] at hx
      subst hx
      simp [List.takeWhile_cons, hxc] at hlt
  · rw [if_neg h]
    exact ⟨rfl, lt_of_le_of_ne (by simpa using (List.takeWhile_prefix p).length_le) h⟩

/-! ## grpDot and matchIp lemmas -/

theorem grpDot_bound (s : List Char) (a : Nat) (h : grpDot s = some a) :
    2 ≤ a ∧ a ≤ s.length := by
  simp only [grpDot] at h
  set r := (s.takeWhile isDigitC).length with hr
  split at h
  · rename_i hcond
    cases h
    have : (s.drop r).head? = some '.' := hcond.2.2
    have hlen : r < s.length := by
      by_contra hge
      rw [List.drop_eq_nil_of_le (by omega)] at this
      simp at this
    omega
  · cases h

theorem grpDot_trans (u x y : List Char) (xc : Char)
    (hx : x.head? = some xc) (hd : isDigitC xc = false) (hp : xc ≠ '.')
    (a : Nat) (h : grpDot (u ++ x) = some a) :
    grpDot (u ++ y) = some a ∧ a ≤ u.length := by
  simp only [grpDot] at h
  set r := ((u ++ x).takeWhile isDigitC).length with hr
  split at h
  · rename_i hcond
    obtain ⟨h1, h3, hdot⟩ := hcond
    cases h
    have hxne : x ≠ [] := by intro hxe; rw [hxe] at hx; simp at hx
    -- the digit run cannot reach into x
    have hrne : r ≠ u.length := by
      intro he
      rw [he, List.drop_append_of_le_length (le_refl _), List.drop_length,
        List.nil_append, hx] at hdot
      cases hdot
      exact hp rfl
    obtain ⟨htw, hlt⟩ := takeWhile_append_blocked isDigitC u x xc hx hd (hr ▸ hrne)
    have hru : ((u).takeWhile isDigitC).length = r := by rw [← htw, ← hr]
    -- the dot is inside u
    have hdotu : (u.drop r).head? = some '.' := by
      rw [List.drop_append_of_le_length (by omega)] at hdot
      rwa [List.head?_append_of_ne_nil] at hdot
      intro hnil
      have := congrArg List.length hnil
      simp at this
      omega
    have hry : ((u ++ y).takeWhile isDigitC).length = r := by
      rw [takeWhile_append_split]
      rw [if_neg (by omega)]
      exact hru
    constructor
    · simp only [grpDot]
      rw [hry, if_pos]
      refine ⟨h1, h3, ?_⟩
      rw [List.drop_append_of_le_length (by omega)]
      rwa [List.head?_append_of_ne_nil]
      intro hnil
      have := congrArg List.length hnil
      simp at this
      omega
    · omega
  · cases h

theorem matchIp_bound (s : List Char) (n : Nat) (h : matchIp s = some n) :
    1 ≤ n ∧ n ≤ s.length := by
  cases h1 : grpDot s with
  | none => simp [matchIp, h1] at h
  | some a =>
  cases h2 : grpDot (s.drop a) with
  | none => simp [matchIp, h1, h2] at h
  | some b =>
  cases h3 : grpDot (s.drop (a + b)) with
  | none => simp [matchIp, h1, h2, h3] at h
  | some c =>
  simp only [matchIp, h1, h2, h3] at h
  split at h
  · rename_i ht
    cases h
    have hb1 := grpDot_bound s a h1
    have hb2 := grpDot_bound _ b h2
    have hb3 := grpDot_bound _ c h3
    rw [List.length_drop] at hb2 hb3
    have htl : ((s.drop (a + b + c)).takeWhile isDigitC).length ≤ s.length - (a + b + c) := by
      have := (List.takeWhile_prefix (l := s.drop (a + b + c)) isDigitC).length_le
      simpa using this
    have hmin : min ((s.drop (a + b + c)).takeWhile isDigitC).length 3 ≤
        ((s.drop (a + b + c)).takeWhile isDigitC).length := Nat.min_le_left _ _
    omega
  · cases h

theorem matchIp_trans (w x y : List Char) (xc : Char) (hx : x.head? = some xc)
    (hd : isDigitC xc = false) (hp : xc ≠ '.') (n : Nat)
    (h : matchIp (w ++ x) = some n) : ∃ k, matchIp (w ++ y) = some k := by
  cases h1 : grpDot (w ++ x) with
  | none => simp [matchIp, h1] at h
  | some a =>
  obtain ⟨h1y, ha⟩ := grpDot_trans w x y xc hx hd hp a h1
  have hda : (w ++ x).drop a = w.drop a ++ x := List.drop_append_of_le_length ha
  cases h2 : grpDot ((w ++ x).drop a) with
  | none => simp [matchIp, h1, h2] at h
  | some b =>
  have h2x : grpDot (w.drop a ++ x) = some b := by rwa [hda] at h2
  obtain ⟨h2y, hb⟩ := grpDot_trans (w.drop a) x y xc hx hd hp b h2x
  rw [List.length_drop] at hb
  have hab : a + b ≤ w.length := by omega
  have hdab : (w ++ x).drop (a + b) = w.drop (a + b) ++ x :=
    List.drop_append_of_le_length hab
  cases h3 : grpDot ((w ++ x).drop (a + b)) with
  | none => simp [matchIp, h1, h2, h3] at h
  | some c =>
  have h3x : grpDot (w.drop (a + b) ++ x) = some c := by rwa [hdab] at h3
  obtain ⟨h3y, hc⟩ := grpDot_trans (w.drop (a + b)) x y xc hx hd hp c h3x
  rw [List.length_drop] at hc
  have habc : a + b + c ≤ w.length := by omega
  have hdabc : (w ++ x).drop (a + b + c) = w.drop (a + b + c) ++ x :=
    List.drop_append_of_le_length habc
  simp only [matchIp, h1, h2, h3] at h
  rw [hdabc] at h
  cases hw : w.drop (a + b + c) with
  | nil =>
    exfalso
    rw [hw, List.nil_append] at h
    cases x with
    | nil => simp at hx
    | cons x0 xs =>
      simp only [List.head?_cons, Option.some.injEq] at hx
      subst hx
      simp [List.takeWhile_cons, hd] at h
  | cons c0 w2 =>
    rw [hw] at h
    have hdabcy : (w ++ y).drop (a + b + c) = w.drop (a + b + c) ++ y :=
      List.drop_append_of_le_length habc
    by_cases hc0 : isDigitC c0 = true
    · have hday : (w ++ y).drop a = w.drop a ++ y := List.drop_append_of_le_length ha
      have hdaby : (w ++ y).drop (a + b) = w.drop (a + b) ++ y :=
        List.drop_append_of_le_length hab
      simp only [matchIp, h1y, hday, h2y, hdaby, h3y, hdabcy, hw, List.cons_append,
        List.takeWhile_cons, hc0, if_true]
      rw [if_pos (by simp)]
      exact ⟨_, rfl⟩
    · exfalso
      simp only [Bool.not_eq_true] at hc0
      simp [List.cons_append, List.takeWhile_cons, hc0] at h

theorem shapePhone_trans (pat : List (Char → Bool))
    (hpat : pat = phone10Shape ∨ pat = phone7Shape)
    (w x y : List Char) (xc : Char) (hx : x.head? = some xc)
    (hd : isDigitC xc = false) (hdash : (xc == '-') = false)
    (h : shapeMatch pat (w ++ x) = true) : shapeMatch pat (w ++ y) = true := by
  by_cases hwlen : pat.length ≤ w.length
  · rw [shapeMatch_take] at h ⊢
    rw [List.take_append_of_le_length hwlen] at h ⊢
    exact h
  · exfalso
    push_neg at hwlen
    cases x with
    | nil => simp at hx
    | cons x0 xs =>
      simp only [List.head?_cons, Option.some.injEq] at hx
      subst hx
      have hwl : w.length < (w ++ x0 :: xs).length := by simp
      have hget : (w ++ x0 :: xs).get ⟨w.length, hwl⟩ = x0 := by
        rw [List.get_eq_getElem, List.getElem_append_right (le_refl w.length)]
        simp
      have hsat := shapeMatch_sat pat _ h w.length hwlen hwl
      rw [hget] at hsat
      have hslot := phoneShape_slots pat hpat (pat.get ⟨w.length, hwlen⟩)
        (List.get_mem pat _ _) x0 hsat
      rw [hd, hdash] at hslot
      simp at hslot

theorem matchPhone10_trans (w x y : List Char) (xc : Char) (hx : x.head? = some xc)
    (hd : isDigitC xc = false) (hdash : (xc == '-') = false) (n : Nat)
    (h : matchPhone10 (w ++ x) = some n) : ∃ k, matchPhone10 (w ++ y) = some k := by
  unfold matchPhone10 at h ⊢
  split at h
  · rename_i hs
    rw [if_pos (shapePhone_trans phone10Shape (Or.inl rfl) w x y xc hx hd hdash hs)]
    exact ⟨12, rfl⟩
  · cases h

theorem matchPhone7_trans (w x y : List Char) (xc : Char) (hx : x.head? = some xc)
    (hd : isDigitC xc = false) (hdash : (xc == '-') = false) (n : Nat)
    (h : matchPhone7 (w ++ x) = some n) : ∃ k, matchPhone7 (w ++ y) = some k := by
  unfold matchPhone7 at h ⊢
  split at h
  · rename_i hs
    rw [if_pos (shapePhone_trans phone7Shape (Or.inr rfl) w x y xc hx hd hdash hs)]
    exact ⟨8, rfl⟩
  · cases h

theorem matchPhone10_head_block (c : Char) (z : List Char) (hc : isDigitC c = false) :
    matchPhone10 (c :: z) = none := by
  have hs : shapeMatch phone10Shape (c :: z) = false := by
    simp [phone10Shape, shapeMatch, hc]
  simp [matchPhone10, hs]

theorem matchPhone7_head_block (c : Char) (z : List Char) (hc : isDigitC c = false) :
    matchPhone7 (c :: z) = none := by
  have hs : shapeMatch phone7Shape (c :: z) = false := by
    simp [phone7Shape, shapeMatch, hc]
  simp [matchPhone7, hs]

theorem matchIp_head_block (c : Char) (z : List Char) (hc : isDigitC c = false) :
    matchIp (c :: z) = none := by
  have hg : grpDot (c :: z) = none := by
    simp [grpDot, List.takeWhile_cons, hc]
  simp [matchIp, hg]

/-- A matcher that needs a digit first never fires inside a digit-free token. -/
theorem tokBlocked (m : List Char → Option Nat)
    (hm : ∀ c z, isDigitC c = false → m (c :: z) = none)
    (T : List Char) (hT : ∀ c ∈ T, isDigitC c = false) :
    ∀ j z, j < T.length → m (T.drop j ++ z) = none := by
  intro j z hj
  rw [List.drop_eq_getElem_cons hj, List.cons_append]
  exact hm _ _ (hT _ (List.getElem_mem hj))

theorem redTok_noDigit : ∀ c ∈ redTok, isDigitC c = false := by decide

theorem ipTok_noDigit : ∀ c ∈ ipTok, isDigitC c = false := by decide

theorem emailTok_noDigit : ∀ c ∈ emailTok, isDigitC c = false := by decide

/-! ## Structure of one re.sub pass -/

/-- A run of the substitution either changes nothing (and then nothing
matched) or splits off a match-free prefix, the first match, and a recursive
tail. -/
theorem runSub_head_structure (M : List Char → Option Nat) (T : List Char)
    (hM : ∀ w n, M w = some n → 1 ≤ n) :
    ∀ (fuel : Nat) (v : List Char), v.length ≤ fuel →
      (runSub M T fuel v = v ∧ hasMatch M v = false) ∨
      ∃ (p rest : List Char) (n fuel' : Nat),
        v = p ++ rest ∧ (∀ i, i < p.length → M (p.drop i ++ rest) = none) ∧
        M rest = some n ∧ (rest.drop n).length ≤ fuel' ∧
        runSub M T fuel v = p ++ (T ++ runSub M T fuel' (rest.drop n)) := by
  intro fuel
  induction fuel with
  | zero =>
    intro v hv
    left
    have hv0 : v = [] := List.length_eq_zero.mp (by omega)
    subst hv0
    exact ⟨rfl, rfl⟩
  | succ fuel ih =>
    intro v hv
    cases v with
    | nil => left; exact ⟨rfl, rfl⟩
    | cons c rest0 =>
      cases hm : M (c :: rest0) with
      | some n =>
        right
        refine ⟨[], c :: rest0, n, fuel, by simp, by simp, hm, ?_, ?_⟩
        · have := hM _ _ hm
          simp only [List.length_drop, List.length_cons] at *
          omega
        · simp only [runSub, hm, List.nil_append]
      | none =>
        rcases ih rest0 (by simpa using Nat.le_of_succ_le_succ hv) with
          ⟨he, hnm⟩ | ⟨p, rest, n, fuel', hsplit, hnone, hmr, hf, heq⟩
        · left
          constructor
          · simp only [runSub, hm, he]
          · simp [hasMatch, hm, hnm]
        · right
          refine ⟨c :: p, rest, n, fuel', by simp [hsplit], ?_, hmr, hf, ?_⟩
          · intro i hi
            cases i with
            | zero =>
              simp only [List.drop_zero, List.cons_append]
              rw [← hsplit]
              exact hm
            | succ i =>
              simp only [List.drop_succ_cons]
              exact hnone i (by simpa using hi)
          · simp only [runSub, hm, heq, List.cons_append]

/-- No scanned matcher fires anywhere in the output of a pass it survives:
if m never fires on v, never fires inside the token, and any m-match
reaching across the token transfers back, then m never fires on the output
of the pass. -/
theorem hasMatch_runSub_preserve (m M : List Char → Option Nat) (T : List Char)
    (hM : ∀ w n, M w = some n → 1 ≤ n ∧ n ≤ w.length)
    (hTok : ∀ j z, j < T.length → m (T.drop j ++ z) = none)
    (hTrans : ∀ w x z n, m (w ++ (T ++ x)) = some n → ∃ k, m (w ++ z) = some k) :
    ∀ (L : Nat) (v : List Char), v.length = L → ∀ (fuel : Nat),
      v.length ≤ fuel → hasMatch m v = false →
      hasMatch m (runSub M T fuel v) = false := by
  intro L
  induction L using Nat.strong_induction_on with
  | _ L ihL =>
  intro v hlen fuel hfuel hv
  rcases runSub_head_structure M T (fun w n hw => (hM w n hw).1) fuel v hfuel with
    ⟨he, _⟩ | ⟨p, rest, n, fuel', hsplit, _, hmr, hf, heq⟩
  · rw [he]; exact hv
  · rw [heq]
    subst hsplit
    obtain ⟨hp, hrest⟩ := (hasMatch_append_iff m p (rest)).mp hv
    have hbounds := hM rest n hmr
    have hrlen : rest.length ≤ L := by
      rw [← hlen]; simp
    have hdlen : (rest.drop n).length < L := by
      rw [← hlen]
      simp only [List.length_drop, List.length_append]
      omega
    have hrec : hasMatch m (runSub M T fuel' (rest.drop n)) = false :=
      ihL _ hdlen (rest.drop n) rfl fuel' hf (hasMatch_drop m rest n hrest)
    rw [hasMatch_append_iff]
    refine ⟨?_, ?_⟩
    · intro i hi
      cases hcon : m (p.drop i ++ (T ++ runSub M T fuel' (rest.drop n))) with
      | none => rfl
      | some k =>
        exfalso
        obtain ⟨k2, hk2⟩ := hTrans (p.drop i) _ rest k hcon
        rw [hp i hi] at hk2
        cases hk2
    · rw [hasMatch_append_iff]
      exact ⟨fun j hj => hTok j _ hj, hrec⟩

/-- The pass of a rule leaves no match of its own rule behind. -/
theorem hasMatch_runSub_self (M : List Char → Option Nat) (T : List Char)
    (hM : ∀ w n, M w = some n → 1 ≤ n ∧ n ≤ w.length)
    (hTok : ∀ j z, j < T.length → M (T.drop j ++ z) = none)
    (hTrans : ∀ w x z n, M (w ++ (T ++ x)) = some n → ∃ k, M (w ++ z) = some k) :
    ∀ (L : Nat) (v : List Char), v.length = L → ∀ (fuel : Nat),
      v.length ≤ fuel → hasMatch M (runSub M T fuel v) = false := by
  intro L
  induction L using Nat.strong_induction_on with
  | _ L ihL =>
  intro v hlen fuel hfuel
  rcases runSub_head_structure M T (fun w n hw => (hM w n hw).1) fuel v hfuel with
    ⟨he, hnm⟩ | ⟨p, rest, n, fuel', hsplit, hnone, hmr, hf, heq⟩
  · rw [he]; exact hnm
  · rw [heq]
    subst hsplit
    have hbounds := hM rest n hmr
    have hdlen : (rest.drop n).length < L := by
      rw [← hlen]
      simp only [List.length_drop, List.length_append]
      omega
    have hrec : hasMatch M (runSub M T fuel' (rest.drop n)) = false :=
      ihL _ hdlen (rest.drop n) rfl fuel' hf
    rw [hasMatch_append_iff]
    refine ⟨?_, ?_⟩
    · intro i hi
      cases hcon : M (p.drop i ++ (T ++ runSub M T fuel' (rest.drop n))) with
      | none => rfl
      | some k =>
        exfalso
        obtain ⟨k2, hk2⟩ := hTrans (p.drop i) _ rest k hcon
        rw [hnone i hi] at hk2
        cases hk2
    · rw [hasMatch_append_iff]
      exact ⟨fun j hj => hTok j _ hj, hrec⟩

/-! ## Email matcher bounds and characterizations -/

theorem tldSearch_bound (trev : List Char) :
    ∀ (next : Option Char) (m : Nat), tldSearch next trev = some m →
      2 ≤ m ∧ m ≤ trev.length := by
  induction trev with
  | nil => intro next m h; cases h
  | cons c rest ih =>
    intro next m h
    simp only [tldSearch] at h
    split at h
    · rename_i hcnd
      cases h
      simpa using hcnd.1
    · have := ih (some c) m h
      simp only [List.length_cons]
      omega

theorem dotPositions_mem (d : List Char) (k : Nat) :
    k ∈ dotPositions d ↔ 1 ≤ k ∧ d[k]? = some '.' := by
  unfold dotPositions
  rw [List.mem_reverse, List.mem_filter]
  constructor
  · rintro ⟨_, hk⟩
    have := of_decide_eq_true hk
    simpa [List.get?_eq_getElem?] using this
  · rintro ⟨h1, h2⟩
    have hklt : k < d.length := by
      by_contra hge
      rw [List.getElem?_eq_none (by omega)] at h2
      cases h2
    refine ⟨List.mem_range.mpr hklt, decide_eq_true ?_⟩
    simpa [List.get?_eq_getElem?] using ⟨h1, h2⟩

theorem domainSearch_bound (rest : List Char) :
    ∀ (ks : List Nat), (∀ k ∈ ks, k + 1 ≤ rest.length) →
      ∀ dm, domainSearch rest ks = some dm → 1 ≤ dm ∧ dm ≤ rest.length := by
  intro ks
  induction ks with
  | nil => intro _ dm h; cases h
  | cons k ks ih =>
    intro hks dm h
    simp only [domainSearch] at h
    cases ht : tldSearch ((rest.drop (k + 1 +
        ((rest.drop (k + 1)).takeWhile tldP).length)).head?)
        ((rest.drop (k + 1)).takeWhile tldP).reverse with
    | some m =>
      rw [ht] at h
      cases h
      obtain ⟨hm2, hmle⟩ := tldSearch_bound _ _ _ ht
      rw [List.length_reverse] at hmle
      have htr : ((rest.drop (k + 1)).takeWhile tldP).length ≤ rest.length - (k + 1) := by
        have := (List.takeWhile_prefix (l := rest.drop (k + 1)) tldP).length_le
        simpa using this
      have hk1 := hks k (by simp)
      omega
    | none =>
      rw [ht] at h
      exact ih (fun k2 hk2 => hks k2 (by simp [hk2])) dm h

theorem matchEmail_bound (q : Option Char) (s : List Char) (n : Nat)
    (h : matchEmail q s = some n) : 1 ≤ n ∧ n ≤ s.length := by
  simp only [matchEmail] at h
  split at h
  · cases h
  · split at h
    · cases h
    · split at h
      · rename_i hat
        split at h
        · cases h
        · cases hds : domainSearch (s.drop ((s.takeWhile localP).length + 1))
            (dotPositions ((s.drop ((s.takeWhile localP).length + 1)).takeWhile domainP)) with
          | none => rw [hds] at h; cases h
          | some dm =>
            rw [hds] at h
            cases h
            have hkbound : ∀ k ∈ dotPositions
                ((s.drop ((s.takeWhile localP).length + 1)).takeWhile domainP),
                k + 1 ≤ (s.drop ((s.takeWhile localP).length + 1)).length := by
              intro k hk
              obtain ⟨_, hget⟩ := (dotPositions_mem _ k).mp hk
              have hklt : k < ((s.drop ((s.takeWhile localP).length + 1)).takeWhile
                  domainP).length := by
                by_contra hge
                rw [List.getElem?_eq_none (by omega)] at hget
                cases hget
              have := (List.takeWhile_prefix
                (l := s.drop ((s.takeWhile localP).length + 1)) domainP).length_le
              omega
            obtain ⟨hdm1, hdm2⟩ := domainSearch_bound _ _ hkbound dm hds
            have hlat : (s.takeWhile localP).length < s.length := by
              by_contra hge
              rw [List.drop_eq_nil_of_le (by omega)] at hat
              simp at hat
            rw [List.length_drop] at hdm2
            omega
      · cases h

/-! ## Structure of the email pass -/

/-- The character preceding the continuation after scanning a list: the last
character of the list, or the incoming previous character for an empty list. -/
def lastPrev : Option Char → List Char → Option Char
  | prev, [] => prev
  | _, c :: p => lastPrev (some c) p

theorem lastPrev_of_ne_nil (q : Option Char) (p : List Char) (h : p ≠ []) :
    lastPrev q p = p.getLast? := by
  induction p generalizing q with
  | nil => exact absurd rfl h
  | cons c p ih =>
    cases p with
    | nil => rfl
    | cons c2 p2 =>
      rw [show lastPrev q (c :: c2 :: p2) = lastPrev (some c) (c2 :: p2) from rfl,
        ih (some c) (by simp), List.getLast?_cons_cons]

/-- The email matcher fires nowhere along a prefix, threading the previous
character, with a fixed continuation. -/
def noM4Along (z : List Char) : Option Char → List Char → Bool
  | _, [] => true
  | q, c :: u => !(matchEmail q (c :: (u ++ z))).isSome && noM4Along z (some c) u

theorem hasMatch4_append_iff (u : List Char) :
    ∀ (q : Option Char) (z : List Char), hasMatch4 q (u ++ z) = false ↔
      noM4Along z q u = true ∧ hasMatch4 (lastPrev q u) z = false := by
  induction u with
  | nil => intro q z; simp [noM4Along, lastPrev]
  | cons c u ih =>
    intro q z
    simp only [List.cons_append, hasMatch4, noM4Along, lastPrev,
      Bool.or_eq_false_iff, Bool.and_eq_true, Bool.not_eq_true', List.append_eq]
    rw [ih (some c) z]
    constructor
    · rintro ⟨h0, h1, h2⟩
      refine ⟨⟨?_, h1⟩, h2⟩
      simpa using h0
    · rintro ⟨⟨h0, h1⟩, h2⟩
      refine ⟨?_, h1, h2⟩
      simpa using h0

/-- One step of the email pass: identity (and no match anywhere), or a
match-free prefix, the first match, and a recursive tail whose threaded
previous character is the last matched character. -/
theorem runSub4_head_structure (T : List Char) :
    ∀ (fuel : Nat) (q : Option Char) (v : List Char), v.length ≤ fuel →
      (runSub4 T fuel q v = v ∧ hasMatch4 q v = false) ∨
      ∃ (p rest : List Char) (n fuel' : Nat),
        v = p ++ rest ∧ noM4Along rest q p = true ∧
        matchEmail (lastPrev q p) rest = some n ∧ (rest.drop n).length ≤ fuel' ∧
        runSub4 T fuel q v =
          p ++ (T ++ runSub4 T fuel' ((rest.take n).getLast?) (rest.drop n)) := by
  intro fuel
  induction fuel with
  | zero =>
    intro q v hv
    left
    have hv0 : v = [] := List.length_eq_zero.mp (by omega)
    subst hv0
    exact ⟨rfl, rfl⟩
  | succ fuel ih =>
    intro q v hv
    cases v with
    | nil => left; exact ⟨rfl, rfl⟩
    | cons c rest0 =>
      cases hm : matchEmail q (c :: rest0) with
      | some n =>
        right
        refine ⟨[], c :: rest0, n, fuel, by simp, rfl, hm, ?_, ?_⟩
        · have := matchEmail_bound _ _ _ hm
          simp only [List.length_drop, List.length_cons] at *
          omega
        · simp only [runSub4, hm, List.nil_append]
      | none =>
        rcases ih (some c) rest0 (by simpa using Nat.le_of_succ_le_succ hv) with
          ⟨he, hnm⟩ | ⟨p, rest, n, fuel', hsplit, hnone, hmr, hf, heq⟩
        · left
          constructor
          · simp only [runSub4, hm, he]
          · simp [hasMatch4, hm, hnm]
        · right
          refine ⟨c :: p, rest, n, fuel', by simp [hsplit], ?_, hmr, hf, ?_⟩
          · simp only [noM4Along, Bool.and_eq_true, Bool.not_eq_true']
            refine ⟨?_, hnone⟩
            rw [← hsplit]
            simp [hm]
          · simp only [runSub4, hm, heq, List.cons_append]

/-- A context-free matcher that never fires on the input, never fires inside
the email token, and transfers across it, never fires on the email-pass
output. -/
theorem hasMatch_runSub4_preserve (m : List Char → Option Nat) (T : List Char)
    (hTok : ∀ j z, j < T.length → m (T.drop j ++ z) = none)
    (hTrans : ∀ w x z n, m (w ++ (T ++ x)) = some n → ∃ k, m (w ++ z) = some k) :
    ∀ (L : Nat) (v : List Char), v.length = L → ∀ (fuel : Nat) (q : Option Char),
      v.length ≤ fuel → hasMatch m v = false →
      hasMatch m (runSub4 T fuel q v) = false := by
  intro L
  induction L using Nat.strong_induction_on with
  | _ L ihL =>
  intro v hlen fuel q hfuel hv
  rcases runSub4_head_structure T fuel q v hfuel with
    ⟨he, _⟩ | ⟨p, rest, n, fuel', hsplit, _, hmr, hf, heq⟩
  · rw [he]; exact hv
  · rw [heq]
    subst hsplit
    obtain ⟨hp, hrest⟩ := (hasMatch_append_iff m p rest).mp hv
    have hbounds := matchEmail_bound _ _ _ hmr
    have hdlen : (rest.drop n).length < L := by
      rw [← hlen]
      simp only [List.length_drop, List.length_append]
      omega
    have hrec : hasMatch m (runSub4 T fuel' ((rest.take n).getLast?) (rest.drop n))
        = false :=
      ihL _ hdlen (rest.drop n) rfl fuel' _ hf (hasMatch_drop m rest n hrest)
    rw [hasMatch_append_iff]
    refine ⟨?_, ?_⟩
    · intro i hi
      cases hcon : m (p.drop i ++ (T ++ runSub4 T fuel' ((rest.take n).getLast?)
          (rest.drop n))) with
      | none => rfl
      | some k =>
        exfalso
        obtain ⟨k2, hk2⟩ := hTrans (p.drop i) _ rest k hcon
        rw [hp i hi] at hk2
        cases hk2
    · rw [hasMatch_append_iff]
      exact ⟨fun j hj => hTok j _ hj, hrec⟩

theorem tldSearch_spec (trev : List Char) :
    ∀ (next : Option Char) (m : Nat), tldSearch next trev = some m →
      ∃ (j : Nat), j < trev.length ∧ trev.length - j = m ∧
        wordBoundary trev[j]? (if j = 0 then next else trev[j - 1]?) = true := by
  induction trev with
  | nil => intro next m h; cases h
  | cons c rest ih =>
    intro next m h
    simp only [tldSearch] at h
    split at h
    · rename_i hcnd
      cases h
      exact ⟨0, by simp, by simp, by simpa using hcnd.2⟩
    · obtain ⟨j, hj, hlen, hb⟩ := ih (some c) m h
      refine ⟨j + 1, by simpa using hj, by simp; omega, ?_⟩
      have h1 : (c :: rest)[j + 1]? = rest[j]? := by simp
      have h2 : (c :: rest)[j + 1 - 1]? = (if j = 0 then some c else rest[j - 1]?) := by
        cases j with
        | zero => simp
        | succ j2 => simp
      rw [h1, h2]
      simpa [Nat.add_sub_cancel] using hb

theorem domainSearch_spec (rest : List Char) :
    ∀ (ks : List Nat) (dm : Nat), domainSearch rest ks = some dm →
      ∃ k ∈ ks, ∃ m, dm = k + 1 + m ∧
        tldSearch ((rest.drop (k + 1 + ((rest.drop (k + 1)).takeWhile tldP).length)).head?)
          (((rest.drop (k + 1)).takeWhile tldP).reverse) = some m := by
  intro ks
  induction ks with
  | nil => intro dm h; cases h
  | cons k ks ih =>
    intro dm h
    simp only [domainSearch] at h
    cases ht : tldSearch ((rest.drop (k + 1 +
        ((rest.drop (k + 1)).takeWhile tldP).length)).head?)
        (((rest.drop (k + 1)).takeWhile tldP).reverse) with
    | some m =>
      rw [ht] at h
      cases h
      exact ⟨k, by simp, m, rfl, ht⟩
    | none =>
      rw [ht] at h
      obtain ⟨k2, hk2, m, hm, hts⟩ := ih dm h
      exact ⟨k2, by simp [hk2], m, hm, hts⟩

theorem matchEmail_spec (q : Option Char) (s : List Char) (n : Nat)
    (h : matchEmail q s = some n) :
    wordBoundary q s.head? = true ∧
    1 ≤ (s.takeWhile localP).length ∧
    (s.drop ((s.takeWhile localP).length)).head? = some '@' ∧
    1 ≤ ((s.drop ((s.takeWhile localP).length + 1)).takeWhile domainP).length ∧
    ∃ dm, domainSearch (s.drop ((s.takeWhile localP).length + 1))
        (dotPositions ((s.drop ((s.takeWhile localP).length + 1)).takeWhile domainP))
        = some dm ∧
      n = (s.takeWhile localP).length + 1 + dm := by
  simp only [matchEmail] at h
  split at h
  · cases h
  · rename_i hl0
    split at h
    · cases h
    · rename_i hbf
      split at h
      · rename_i hat
        split at h
        · cases h
        · rename_i hd0
          cases hds : domainSearch (s.drop ((s.takeWhile localP).length + 1))
              (dotPositions ((s.drop ((s.takeWhile localP).length + 1)).takeWhile
                domainP)) with
          | none => rw [hds] at h; cases h
          | some dm =>
            rw [hds] at h
            cases h
            refine ⟨?_, by omega, hat, by omega, dm, rfl, rfl⟩
            cases hwb : wordBoundary q s.head? with
            | false => exact absurd hwb hbf
            | true => rfl
      · cases h

theorem matchEmail_intro (q : Option Char) (s : List Char) (dm : Nat)
    (hl : 1 ≤ (s.takeWhile localP).length)
    (hb : wordBoundary q s.head? = true)
    (hat : (s.drop ((s.takeWhile localP).length)).head? = some '@')
    (hd : 1 ≤ ((s.drop ((s.takeWhile localP).length + 1)).takeWhile domainP).length)
    (hds : domainSearch (s.drop ((s.takeWhile localP).length + 1))
        (dotPositions ((s.drop ((s.takeWhile localP).length + 1)).takeWhile domainP))
        = some dm) :
    matchEmail q s = some ((s.takeWhile localP).length + 1 + dm) := by
  simp only [matchEmail, hat]
  rw [if_neg (by omega), if_neg (by simp [hb]), if_neg (by omega)]
  simp only [hds]

/-- The trailing word boundary of an email match: the boundary between the
last consumed character and the character after the match holds. -/
theorem matchEmail_last_boundary (q : Option Char) (s : List Char) (n : Nat)
    (h : matchEmail q s = some n) :
    wordBoundary ((s.take n).getLast?) s[n]? = true := by
  have hbound := matchEmail_bound q s n h
  obtain ⟨hb, hl, hat, hd, dm, hds, hn⟩ := matchEmail_spec q s n h
  obtain ⟨k, hk, m, hdm, hts⟩ := domainSearch_spec _ _ dm hds
  have hm2 := tldSearch_bound _ _ _ hts
  rw [List.length_reverse] at hm2
  obtain ⟨j, hj, hjm, hjb⟩ := tldSearch_spec _ _ m hts
  rw [List.length_reverse] at hj hjm
  set l := (s.takeWhile localP).length with hldef
  set rest2 := s.drop (l + 1) with hrest2
  set tRun := (rest2.drop (k + 1)).takeWhile tldP with htdef
  have hTlen : ((rest2.drop (k + 1)).takeWhile tldP).length = tRun.length := by
    rw [← htdef]
  have e1 : (tRun.reverse)[j]? = tRun[m - 1]? := by
    rw [List.getElem?_reverse hj]
    congr 1
    omega
  have e2 : tRun[m - 1]? = rest2[k + 1 + (m - 1)]? := by
    rw [← takeWhile_get tldP (rest2.drop (k + 1)) (m - 1) (by omega),
      List.getElem?_drop]
  have e3 : (if j = 0 then (rest2.drop (k + 1 + tRun.length)).head?
      else (tRun.reverse)[j - 1]?) = rest2[k + 1 + m]? := by
    by_cases hj0 : j = 0
    · rw [if_pos hj0, List.head?_drop]
      congr 1
      omega
    · rw [if_neg hj0]
      have hj1 : j - 1 < tRun.length := by omega
      rw [List.getElem?_reverse hj1]
      have hidx : tRun.length - 1 - (j - 1) = m := by omega
      rw [hidx, ← takeWhile_get tldP (rest2.drop (k + 1)) m (by omega),
        List.getElem?_drop]
  rw [e1, e2, e3] at hjb
  have e4 : rest2[k + 1 + (m - 1)]? = s[n - 1]? := by
    rw [hrest2, List.getElem?_drop]
    congr 1
    omega
  have e5 : rest2[k + 1 + m]? = s[n]? := by
    rw [hrest2, List.getElem?_drop]
    congr 1
    omega
  have e6 : (s.take n).getLast? = s[n - 1]? := by
    rw [List.getLast?_eq_getElem?]
    have hlen : (s.take n).length = n := by
      simp only [List.length_take]
      omega
    rw [hlen, List.getElem?_take]
    rw [if_pos (by omega)]
  rw [e6, ← e4, ← e5]
  exact hjb

/-! ## Helpers for append boundaries -/

theorem head?_append_left (u v : List Char) (h : u ≠ []) :
    (u ++ v).head? = u.head? := by
  cases u with
  | nil => exact absurd rfl h
  | cons a t => rfl

theorem prefix_getElem? (u v : List Char) (h : u <+: v) (i : Nat)
    (hi : i < u.length) : v[i]? = u[i]? := by
  obtain ⟨t, rfl⟩ := h
  exact List.getElem?_append_left hi

theorem getLast?_drop_of_ne_nil (w : List Char) (i : Nat) (h : w.drop i ≠ []) :
    (w.drop i).getLast? = w.getLast? := by
  conv_rhs => rw [← List.take_append_drop i w]
  rw [List.getLast?_append_of_ne_nil _ h]

theorem takeWhile_head_of_ne_nil (p : Char → Bool) (l : List Char)
    (hn : l.takeWhile p ≠ []) : (l.takeWhile p).head? = l.head? := by
  cases l with
  | nil => simp at hn
  | cons a t =>
    rw [List.takeWhile_cons] at hn ⊢
    by_cases hp : p a
    · simp [hp]
    · simp [hp] at hn

/-! ## TLD search in run form -/

theorem tldSearch_intro_rev (trev : List Char) :
    ∀ (next : Option Char) (j : Nat), j < trev.length → 2 ≤ trev.length - j →
      wordBoundary trev[j]? (if j = 0 then next else trev[j - 1]?) = true →
      ∃ m2, tldSearch next trev = some m2 := by
  induction trev with
  | nil => intro next j hj; simp at hj
  | cons c rest ih =>
    intro next j hj h2 hb
    by_cases hc : 2 ≤ rest.length + 1 ∧ wordBoundary (some c) next = true
    · exact ⟨rest.length + 1, by simp [tldSearch, hc.1, hc.2]⟩
    · have hrec : tldSearch next (c :: rest) = tldSearch (some c) rest := by
        simp only [tldSearch]
        rw [if_neg]
        intro hcnd
        exact hc ⟨hcnd.1, hcnd.2⟩
      rw [hrec]
      cases j with
      | zero =>
        exfalso
        apply hc
        constructor
        · simpa using h2
        · simpa using hb
      | succ j2 =>
        apply ih (some c) j2 (by simpa using hj) (by simp at h2 ⊢; omega)
        have e1 : (c :: rest)[j2 + 1]? = rest[j2]? := by simp
        have e2 : (c :: rest)[j2 + 1 - 1]? = (if j2 = 0 then some c else rest[j2 - 1]?) := by
          cases j2 with
          | zero => simp
          | succ j3 => simp
        rw [e1, e2] at hb
        exact hb

/-- Success condition for the TLD search, phrased on the unreversed run: a
boundary at a length m between 2 and the run length. -/
theorem tldSearch_intro_run (u : List Char) (next : Option Char) (m : Nat)
    (h2 : 2 ≤ m) (hm : m ≤ u.length)
    (hb : wordBoundary u[m - 1]? (if m < u.length then u[m]? else next) = true) :
    ∃ m2, tldSearch next u.reverse = some m2 := by
  apply tldSearch_intro_rev u.reverse next (u.length - m)
  · rw [List.length_reverse]; omega
  · rw [List.length_reverse]; omega
  · have e1 : (u.reverse)[u.length - m]? = u[m - 1]? := by
      rw [List.getElem?_reverse (by omega)]
      congr 1
      omega
    have e2 : (if u.length - m = 0 then next else (u.reverse)[u.length - m - 1]?) =
        (if m < u.length then u[m]? else next) := by
      by_cases hlt : m < u.length
      · rw [if_neg (by omega), if_pos hlt, List.getElem?_reverse (by omega)]
        congr 1
        omega
      · rw [if_pos (by omega), if_neg hlt]
    rw [e1, e2]
    exact hb

/-- The spec of a successful TLD search, phrased on the unreversed run. -/
theorem tldSearch_spec_run (u : List Char) (next : Option Char) (m : Nat)
    (h : tldSearch next u.reverse = some m) :
    2 ≤ m ∧ m ≤ u.length ∧
      wordBoundary u[m - 1]? (if m < u.length then u[m]? else next) = true := by
  have hb2 := tldSearch_bound _ _ _ h
  rw [List.length_reverse] at hb2
  obtain ⟨j, hj, hjm, hjb⟩ := tldSearch_spec _ _ _ h
  rw [List.length_reverse] at hj hjm
  refine ⟨hb2.1, hb2.2, ?_⟩
  have e1 : (u.reverse)[j]? = u[m - 1]? := by
    rw [List.getElem?_reverse hj]
    congr 1
    omega
  have e2 : (if j = 0 then next else (u.reverse)[j - 1]?) =
      (if m < u.length then u[m]? else next) := by
    by_cases hj0 : j = 0
    · rw [if_pos hj0, if_neg (by omega)]
    · rw [if_neg hj0, if_pos (by omega), List.getElem?_reverse (by omega)]
      congr 1
      omega
  rw [e1, e2] at hjb
  exact hjb

theorem domainSearch_isSome_of_mem (rest : List Char) :
    ∀ (ks : List Nat) (k : Nat), k ∈ ks →
      (∃ m2, tldSearch ((rest.drop (k + 1 +
          ((rest.drop (k + 1)).takeWhile tldP).length)).head?)
          (((rest.drop (k + 1)).takeWhile tldP).reverse) = some m2) →
      ∃ dm2, domainSearch rest ks = some dm2 := by
  intro ks
  induction ks with
  | nil => intro k hk; simp at hk
  | cons k0 ks ih =>
    intro k hk hc
    cases ht : tldSearch ((rest.drop (k0 + 1 +
        ((rest.drop (k0 + 1)).takeWhile tldP).length)).head?)
        (((rest.drop (k0 + 1)).takeWhile tldP).reverse) with
    | some m =>
      refine ⟨k0 + 1 + m, ?_⟩
      simp only [domainSearch]
      rw [ht]
    | none =>
      have hkne : k ≠ k0 := by
        intro he
        subst he
        obtain ⟨m2, hm2⟩ := hc
        rw [ht] at hm2
        cases hm2
      have hkin : k ∈ ks := by
        rcases List.mem_cons.mp hk with he | hin
        · exact absurd he hkne
        · exact hin
      obtain ⟨dm2, hdm2⟩ := ih k hkin hc
      refine ⟨dm2, ?_⟩
      simp only [domainSearch]
      rw [ht]
      exact hdm2

/-! ## Previous-character flips and token positions for the email rule -/

/-- The previous character only enters the email matcher through the leading
word boundary: if the boundary holds for one previous character and the
other previous character is a non-word character, failure transfers. -/
theorem matchEmail_flip (qx qy : Option Char) (s : List Char)
    (hqy : optWord qy = false) (hbx : wordBoundary qx s.head? = true)
    (hx : matchEmail qx s = none) : matchEmail qy s = none := by
  cases hy : matchEmail qy s with
  | none => rfl
  | some n =>
    exfalso
    obtain ⟨_, hl, hat, hd, dm, hds, _⟩ := matchEmail_spec qy s n hy
    have := matchEmail_intro qx s dm hl hbx hat hd hds
    rw [hx] at this
    cases this

theorem hasMatch4_flip (qx qy : Option Char) (v : List Char)
    (hcond : qy = qx ∨ (optWord qy = false ∧ wordBoundary qx v.head? = true))
    (h : hasMatch4 qx v = false) : hasMatch4 qy v = false := by
  rcases hcond with rfl | ⟨hqy, hbx⟩
  · exact h
  · cases v with
    | nil => rfl
    | cons c rest =>
      simp only [hasMatch4, Bool.or_eq_false_iff] at h ⊢
      refine ⟨?_, h.2⟩
      have hmx : matchEmail qx (c :: rest) = none := by
        cases hmm2 : matchEmail qx (c :: rest) with
        | none => rfl
        | some k =>
          rw [hmm2] at h
          simp at h
      rw [matchEmail_flip qx qy (c :: rest) hqy hbx hmx]
      rfl

/-- The email matcher fails at any position where the character after the
local-class run is not an at-sign. -/
theorem matchEmail_noAt_block (w : List Char)
    (hafter : (w.drop ((w.takeWhile localP).length)).head? ≠ some '@') :
    ∀ q, matchEmail q w = none := by
  intro q
  cases hm : matchEmail q w with
  | none => rfl
  | some n =>
    exfalso
    obtain ⟨_, _, hat, _, _, _, _⟩ := matchEmail_spec _ _ _ hm
    exact hafter hat

/-- The email matcher fails when the first character is outside the local
class (the local part would be empty). -/
theorem matchEmail_head_block (c : Char) (z : List Char) (hc : localP c = false)
    (q : Option Char) : matchEmail q (c :: z) = none := by
  have h0 : ((c :: z).takeWhile localP).length = 0 := by
    rw [List.takeWhile_cons, hc]
    simp
  simp [matchEmail, h0]

/-- The email matcher fails at a position whose local-class run is followed
by a closing bracket. -/
theorem matchEmail_localSeg_block (u : List Char) (hu : ∀ c ∈ u, localP c = true)
    (z : List Char) (q : Option Char) : matchEmail q (u ++ ']' :: z) = none := by
  apply matchEmail_noAt_block
  have hfull : u.takeWhile localP = u := List.takeWhile_eq_self_iff.mpr hu
  have htw : (u ++ ']' :: z).takeWhile localP = u := by
    rw [takeWhile_append_split, if_pos (by rw [hfull]), List.takeWhile_cons]
    have hb : localP ']' = false := by decide
    rw [hb]
    simp
  rw [htw, List.drop_left]
  intro hcontra
  have : (']' : Char) = '@' := Option.some.inj hcontra
  exact absurd this (by decide)

/-- The email matcher fires at no position inside the email token. -/
theorem emailTok_pos_block (j : Nat) (z : List Char) (q : Option Char)
    (hj : j < emailTok.length) : matchEmail q (emailTok.drop j ++ z) = none := by
  have hj16 : j < 16 := by simpa using hj
  clear hj
  interval_cases j
  · exact matchEmail_head_block '[' _ (by decide) q
  · exact matchEmail_localSeg_block ['E', 'M', 'A', 'I', 'L', '_', 'R', 'E', 'D', 'A', 'C', 'T', 'E', 'D'] (by decide) z q
  · exact matchEmail_localSeg_block ['M', 'A', 'I', 'L', '_', 'R', 'E', 'D', 'A', 'C', 'T', 'E', 'D'] (by decide) z q
  · exact matchEmail_localSeg_block ['A', 'I', 'L', '_', 'R', 'E', 'D', 'A', 'C', 'T', 'E', 'D'] (by decide) z q
  · exact matchEmail_localSeg_block ['I', 'L', '_', 'R', 'E', 'D', 'A', 'C', 'T', 'E', 'D'] (by decide) z q
  · exact matchEmail_localSeg_block ['L', '_', 'R', 'E', 'D', 'A', 'C', 'T', 'E', 'D'] (by decide) z q
  · exact matchEmail_localSeg_block ['_', 'R', 'E', 'D', 'A', 'C', 'T', 'E', 'D'] (by decide) z q
  · exact matchEmail_localSeg_block ['R', 'E', 'D', 'A', 'C', 'T', 'E', 'D'] (by decide) z q
  · exact matchEmail_localSeg_block ['E', 'D', 'A', 'C', 'T', 'E', 'D'] (by decide) z q
  · exact matchEmail_localSeg_block ['D', 'A', 'C', 'T', 'E', 'D'] (by decide) z q
  · exact matchEmail_localSeg_block ['A', 'C', 'T', 'E', 'D'] (by decide) z q
  · exact matchEmail_localSeg_block ['C', 'T', 'E', 'D'] (by decide) z q
  · exact matchEmail_localSeg_block ['T', 'E', 'D'] (by decide) z q
  · exact matchEmail_localSeg_block ['E', 'D'] (by decide) z q
  · exact matchEmail_localSeg_block ['D'] (by decide) z q
  · exact matchEmail_head_block ']' _ (by decide) q

/-- A positionwise matcher failure gives the scan predicate along a list. -/
theorem noM4Along_of_all (u z : List Char)
    (h : ∀ (j : Nat) (q2 : Option Char), j < u.length →
      matchEmail q2 (u.drop j ++ z) = none) :
    ∀ q, noM4Along z q u = true := by
  induction u with
  | nil => intro q; rfl
  | cons c u ih =>
    intro q
    simp only [noM4Along, Bool.and_eq_true, Bool.not_eq_true']
    constructor
    · have := h 0 q (by simp)
      simp only [List.drop_zero, List.cons_append] at this
      simp [this]
    · exact ih (fun j q2 hj => by
        simpa using h (j + 1) q2 (by simpa using hj)) (some c)

/-- A class run stops at the opening bracket of the email token. -/
theorem takeWhile_append_emailTok (p : Char → Bool) (hp : p '[' = false)
    (u x : List Char) :
    (u ++ (emailTok ++ x)).takeWhile p = u.takeWhile p := by
  rw [takeWhile_append_split]
  split
  · rename_i hfull
    have h0 : (emailTok ++ x).takeWhile p = [] := by
      rw [show emailTok ++ x = '[' :: ("EMAIL_REDACTED]".data ++ x) from rfl,
        List.takeWhile_cons, hp]
      simp
    rw [h0, List.append_nil, takeWhile_full p u hfull]
  · rfl

/-- The class run of the first list is a prefix of the class run of the
appended list. -/
theorem takeWhile_append_prefix (p : Char → Bool) (u zx : List Char) :
    u.takeWhile p <+: (u ++ zx).takeWhile p := by
  rw [takeWhile_append_split]
  split
  · rename_i hfull
    rw [takeWhile_full p u hfull]
    exact List.prefix_append u _
  · exact List.prefix_refl _

/-- The central transfer lemma for the email rule: a match found against a
segment followed by the email token (and anything after it) pulls back to a
match against the same segment followed by its original continuation,
provided the word boundary between the segment end and the continuation
held (which is exactly the leading boundary of the match that produced the
token).  The match cannot cross the opening bracket, so everything but the
trailing TLD boundary lives inside the segment, and the boundary case
analysis uses that the bracket and the continuation head are on the same
side of the word-character split. -/
theorem emailTransfer (q : Option Char) (w x zx : List Char) (n : Nat)
    (hzb : wordBoundary w.getLast? zx.head? = true)
    (hy : matchEmail q (w ++ (emailTok ++ x)) = some n) :
    ∃ k2, matchEmail q (w ++ zx) = some k2 := by
  obtain ⟨hb, hl, hat, hd, dm, hds, hn⟩ := matchEmail_spec q (w ++ (emailTok ++ x)) n hy
  have hpl : localP '[' = false := by decide
  have hpd : domainP '[' = false := by decide
  have hpt : tldP '[' = false := by decide
  have hSl : (w ++ (emailTok ++ x)).takeWhile localP = w.takeWhile localP :=
    takeWhile_append_emailTok localP hpl w x
  rw [hSl] at hl hat hd hds hn
  set l := (w.takeWhile localP).length with hldef
  have hllew : l ≤ w.length := by
    rw [hldef]
    exact (List.takeWhile_prefix localP).length_le
  have hlw : l < w.length := by
    rcases eq_or_lt_of_le hllew with he | hlt
    · exfalso
      rw [he, List.drop_left] at hat
      rw [show (emailTok ++ x).head? = some '[' from rfl] at hat
      simp at hat
    · exact hlt
  have hwdl_ne : w.drop l ≠ [] := by
    intro hnil
    have := congrArg List.length hnil
    simp at this
    omega
  have hat_w : (w.drop l).head? = some '@' := by
    rw [List.drop_append_of_le_length (Nat.le_of_lt hlw)] at hat
    rwa [head?_append_left _ _ hwdl_ne] at hat
  have hSxl : (w ++ zx).takeWhile localP = w.takeWhile localP := by
    rw [takeWhile_append_split, if_neg (by rw [← hldef]; omega)]
  have hat_x : ((w ++ zx).drop l).head? = some '@' := by
    rw [List.drop_append_of_le_length (Nat.le_of_lt hlw),
      head?_append_left _ _ hwdl_ne]
    exact hat_w
  have hwne : w ≠ [] := by
    intro he
    rw [he] at hlw
    simp at hlw
  have hb_x : wordBoundary q (w ++ zx).head? = true := by
    rw [head?_append_left _ _ hwne]
    rw [head?_append_left _ _ hwne] at hb
    exact hb
  have hl1w : l + 1 ≤ w.length := hlw
  set w1 := w.drop (l + 1) with hw1def
  have hrest2 : (w ++ (emailTok ++ x)).drop (l + 1) = w1 ++ (emailTok ++ x) :=
    List.drop_append_of_le_length hl1w
  rw [hrest2] at hd hds
  have hdw : (w1 ++ (emailTok ++ x)).takeWhile domainP = w1.takeWhile domainP :=
    takeWhile_append_emailTok domainP hpd w1 x
  rw [hdw] at hd hds
  have hrest2x : (w ++ zx).drop (l + 1) = w1 ++ zx :=
    List.drop_append_of_le_length hl1w
  have hdpre : w1.takeWhile domainP <+: (w1 ++ zx).takeWhile domainP :=
    takeWhile_append_prefix domainP w1 zx
  obtain ⟨k, hk, m, hdm, hts⟩ := domainSearch_spec _ _ dm hds
  obtain ⟨hk1, hkdot⟩ := (dotPositions_mem _ k).mp hk
  have hklt : k < (w1.takeWhile domainP).length := by
    by_contra hge
    rw [List.getElem?_eq_none (by omega)] at hkdot
    cases hkdot
  have hkw1 : k < w1.length :=
    lt_of_lt_of_le hklt (List.takeWhile_prefix domainP).length_le
  have hkx : k ∈ dotPositions ((w1 ++ zx).takeWhile domainP) := by
    rw [dotPositions_mem]
    exact ⟨hk1, by rw [prefix_getElem? _ _ hdpre k hklt]; exact hkdot⟩
  set w2 := w1.drop (k + 1) with hw2def
  have hk1w1 : k + 1 ≤ w1.length := hkw1
  have hw2len : w2.length = w1.length - (k + 1) := by
    rw [hw2def, List.length_drop]
  have hdrop_y : (w1 ++ (emailTok ++ x)).drop (k + 1) = w2 ++ (emailTok ++ x) :=
    List.drop_append_of_le_length hk1w1
  rw [hdrop_y] at hts
  have htr : (w2 ++ (emailTok ++ x)).takeWhile tldP = w2.takeWhile tldP :=
    takeWhile_append_emailTok tldP hpt w2 x
  rw [htr] at hts
  set t := (w2.takeWhile tldP).length with htdef
  have htw2 : t ≤ w2.length := by
    rw [htdef]
    exact (List.takeWhile_prefix tldP).length_le
  have hkt_w1 : k + 1 + t ≤ w1.length := by omega
  have hnext_y : (w1 ++ (emailTok ++ x)).drop (k + 1 + t) =
      w2.drop t ++ (emailTok ++ x) := by
    rw [List.drop_append_of_le_length hkt_w1,
      show w2.drop t = w1.drop (k + 1 + t) from by rw [hw2def, List.drop_drop]]
  rw [hnext_y] at hts
  obtain ⟨hm2, hmt, hbm⟩ := tldSearch_spec_run (w2.takeWhile tldP) _ m hts
  rw [← htdef] at hmt hbm
  have hdrop_x : (w1 ++ zx).drop (k + 1) = w2 ++ zx :=
    List.drop_append_of_le_length hk1w1
  have htpre : w2.takeWhile tldP <+: (w2 ++ zx).takeWhile tldP :=
    takeWhile_append_prefix tldP w2 zx
  have hnext_x : ∀ j : Nat, j ≤ w2.length → (w1 ++ zx).drop (k + 1 + j) =
      w2.drop j ++ zx := by
    intro j hj
    rw [List.drop_append_of_le_length (by omega),
      show w2.drop j = w1.drop (k + 1 + j) from by rw [hw2def, List.drop_drop]]
  have hcheck : ∃ m2, tldSearch (((w1 ++ zx).drop (k + 1 +
      (((w1 ++ zx).drop (k + 1)).takeWhile tldP).length)).head?)
      ((((w1 ++ zx).drop (k + 1)).takeWhile tldP).reverse) = some m2 := by
    rw [hdrop_x]
    by_cases hmlt : m < t
    · apply tldSearch_intro_run _ _ m hm2 (le_trans hmt htpre.length_le)
      rw [prefix_getElem? _ _ htpre (m - 1) (by rw [← htdef]; omega),
        if_pos (by
          have := htpre.length_le
          rw [← htdef] at this
          omega),
        prefix_getElem? _ _ htpre m (by rw [← htdef]; omega)]
      rw [if_pos hmlt] at hbm
      exact hbm
    · have hmeq : m = t := by omega
      rw [if_neg (by omega)] at hbm
      by_cases ht2 : t < w2.length
      · have hrx : (w2 ++ zx).takeWhile tldP = w2.takeWhile tldP := by
          rw [takeWhile_append_split, if_neg (by rw [← htdef]; omega)]
        rw [hrx, ← htdef]
        have hw2d_ne : w2.drop t ≠ [] := by
          intro hnil
          have := congrArg List.length hnil
          simp at this
          omega
        apply tldSearch_intro_run _ _ m hm2 hmt
        rw [if_neg (by rw [← htdef]; omega), hnext_x t htw2,
          head?_append_left _ _ hw2d_ne]
        rwa [head?_append_left _ _ hw2d_ne] at hbm
      · have hmw2 : t = w2.length := by omega
        have hfull : w2.takeWhile tldP = w2 := takeWhile_full tldP w2 (by omega)
        have hw2ne : w2 ≠ [] := by
          intro he2
          have hlen0 : w2.length = 0 := by rw [he2]; rfl
          omega
        have hNEXT : (w2.drop t ++ (emailTok ++ x)).head? = some '[' := by
          rw [show w2.drop t = [] from by rw [hmw2]; exact List.drop_length w2]
          rfl
        rw [hNEXT, hfull] at hbm
        have hword_last : optWord w2[m - 1]? = true := by
          unfold wordBoundary at hbm
          rw [show optWord (some '[') = false from by decide] at hbm
          simpa using hbm
        have hw2w : w2 = w.drop (l + 1 + (k + 1)) := by
          rw [hw2def, hw1def, List.drop_drop]
        have hlast_eq : w.getLast? = w2[m - 1]? := by
          have hgl : (w.drop (l + 1 + (k + 1))).getLast? = w.getLast? :=
            getLast?_drop_of_ne_nil w _ (by rw [← hw2w]; exact hw2ne)
          rw [← hw2w] at hgl
          rw [← hgl, List.getLast?_eq_getElem?]
          congr 1
          omega
        have hzx_nonword : optWord zx.head? = false := by
          unfold wordBoundary at hzb
          rw [hlast_eq, hword_last] at hzb
          simpa using hzb
        have hrxfull : (w2 ++ zx).takeWhile tldP = w2 ++ zx.takeWhile tldP := by
          rw [takeWhile_append_split, if_pos (by rw [← htdef]; omega)]
        cases he : zx.takeWhile tldP with
        | nil =>
          have hrx2 : (w2 ++ zx).takeWhile tldP = w2 := by
            rw [hrxfull, he, List.append_nil]
          rw [hrx2]
          apply tldSearch_intro_run w2 _ m hm2 (by omega)
          rw [if_neg (by omega), hnext_x w2.length (le_refl _),
            List.drop_length, List.nil_append]
          unfold wordBoundary
          rw [hword_last, hzx_nonword]
          rfl
        | cons e0 e2 =>
          have hrx2 : (w2 ++ zx).takeWhile tldP = w2 ++ e0 :: e2 := by
            rw [hrxfull, he]
          rw [hrx2]
          have hzxhead : zx.head? = some e0 := by
            have hh := takeWhile_head_of_ne_nil tldP zx (by rw [he]; simp)
            rw [he] at hh
            exact hh.symm
          have he0 : optWord (some e0) = false := by
            rw [← hzxhead]
            exact hzx_nonword
          apply tldSearch_intro_run (w2 ++ e0 :: e2) _ m hm2 (by simp; omega)
          rw [if_pos (by simp; omega)]
          have hidx1 : (w2 ++ e0 :: e2)[m - 1]? = w2[m - 1]? :=
            List.getElem?_append_left (by omega)
          have hidx2 : (w2 ++ e0 :: e2)[m]? = some e0 := by
            rw [List.getElem?_append_right (by omega)]
            rw [show m - w2.length = 0 from by omega]
            simp
          rw [hidx1, hidx2]
          unfold wordBoundary
          rw [hword_last, he0]
          rfl
  obtain ⟨dm2, hds2⟩ := domainSearch_isSome_of_mem (w1 ++ zx)
    (dotPositions ((w1 ++ zx).takeWhile domainP)) k hkx hcheck
  have hlen_x : ((w ++ zx).takeWhile localP).length = l := by
    rw [hSxl]
  have h1 : 1 ≤ ((w ++ zx).takeWhile localP).length := by omega
  have h3 : ((w ++ zx).drop (((w ++ zx).takeWhile localP).length)).head?
      = some '@' := by
    rw [hlen_x]
    exact hat_x
  have h4 : 1 ≤ (((w ++ zx).drop (((w ++ zx).takeWhile localP).length
      + 1)).takeWhile domainP).length := by
    rw [hlen_x, hrest2x]
    have := hdpre.length_le
    omega
  have h5 : domainSearch ((w ++ zx).drop (((w ++ zx).takeWhile localP).length + 1))
      (dotPositions (((w ++ zx).drop (((w ++ zx).takeWhile localP).length
        + 1)).takeWhile domainP)) = some dm2 := by
    rw [hlen_x, hrest2x]
    exact hds2
  exact ⟨_, matchEmail_intro q (w ++ zx) dm2 h1 hb_x h3 h4 h5⟩

/-- Transfer of the match-free scan across the replacement: if the email
matcher fired nowhere along a prefix against the original continuation, and
the word boundary into that continuation held, then it fires nowhere along
the prefix against the token-and-rewritten continuation either; the starting
previous character may also be exchanged for a non-word one when the leading
boundary of the whole segment held. -/
theorem noM4Along_transfer (z2 rest : List Char) :
    ∀ (p : List Char) (qx qy : Option Char),
      wordBoundary (lastPrev qx p) rest.head? = true →
      (qy = qx ∨ (optWord qy = false ∧ wordBoundary qx (p ++ rest).head? = true)) →
      noM4Along rest qx p = true →
      noM4Along (emailTok ++ z2) qy p = true := by
  intro p
  induction p with
  | nil => intro qx qy _ _ _; rfl
  | cons c u ih =>
    intro qx qy hb hcond hno
    simp only [noM4Along, Bool.and_eq_true, Bool.not_eq_true'] at hno ⊢
    obtain ⟨hno0, hnoRec⟩ := hno
    constructor
    · cases hmy : matchEmail qy (c :: (u ++ (emailTok ++ z2))) with
      | none => simp [hmy]
      | some n2 =>
        exfalso
        have hmy2 : matchEmail qy ((c :: u) ++ (emailTok ++ z2)) = some n2 := by
          simpa using hmy
        have hzb : wordBoundary (c :: u).getLast? rest.head? = true := by
          rw [← lastPrev_of_ne_nil qx (c :: u) (by simp)]
          exact hb
        obtain ⟨k2, hk2⟩ := emailTransfer qy (c :: u) z2 rest n2 hzb hmy2
        have hxnone : matchEmail qx ((c :: u) ++ rest) = none := by
          rw [List.cons_append]
          cases hmm : matchEmail qx (c :: (u ++ rest)) with
          | none => rfl
          | some k => rw [hmm] at hno0; simp at hno0
        have hynone : matchEmail qy ((c :: u) ++ rest) = none := by
          rcases hcond with rfl | ⟨hqy, hbx⟩
          · exact hxnone
          · exact matchEmail_flip qx qy ((c :: u) ++ rest) hqy hbx hxnone
        rw [hynone] at hk2
        cases hk2
    · exact ih (some c) (some c) hb (Or.inl rfl) hnoRec

/-- The email pass leaves no email match behind: the matcher fires nowhere
on the output, even judged with a rewritten starting previous character,
provided that character is non-word while the original leading boundary
held (or it is unchanged). -/
theorem hasMatch4_runSub4_self :
    ∀ (L : Nat) (v : List Char), v.length = L →
      ∀ (fuel : Nat) (qx qy : Option Char), v.length ≤ fuel →
      (qy = qx ∨ (optWord qy = false ∧ wordBoundary qx v.head? = true)) →
      hasMatch4 qy (runSub4 emailTok fuel qx v) = false := by
  intro L
  induction L using Nat.strong_induction_on with
  | _ L ihL =>
  intro v hlen fuel qx qy hfuel hcond
  rcases runSub4_head_structure emailTok fuel qx v hfuel with
    ⟨he, hnm⟩ | ⟨p, rest, n, fuel', hsplit, hnone, hmr, hf, heq⟩
  · rw [he]
    exact hasMatch4_flip qx qy v hcond hnm
  · rw [heq]
    subst hsplit
    have hbounds := matchEmail_bound _ _ _ hmr
    have hdlen : (rest.drop n).length < L := by
      rw [← hlen]
      simp only [List.length_drop, List.length_append]
      omega
    have hlb := matchEmail_last_boundary _ _ _ hmr
    have hrec : hasMatch4 (some ']')
        (runSub4 emailTok fuel' ((rest.take n).getLast?) (rest.drop n)) = false := by
      apply ihL _ hdlen (rest.drop n) rfl fuel' ((rest.take n).getLast?) (some ']') hf
      right
      refine ⟨by decide, ?_⟩
      rw [List.head?_drop]
      exact hlb
    obtain ⟨hbm, _, _, _, _, _, _⟩ := matchEmail_spec _ _ _ hmr
    rw [hasMatch4_append_iff]
    constructor
    · exact noM4Along_transfer _ rest p qx qy hbm hcond hnone
    · rw [hasMatch4_append_iff]
      refine ⟨noM4Along_of_all emailTok _
        (fun j q2 hj => emailTok_pos_block j _ q2 hj) _, ?_⟩
      have hlp : lastPrev (lastPrev qy p) emailTok = some ']' := by
        rw [lastPrev_of_ne_nil _ _ (by decide)]
        decide
      rw [hlp]
      exact hrec

/-- The full redaction pipeline over character lists is a fixed point on its
own output: no rule of the four matches anywhere in a redacted list, so a
second run changes nothing. -/
theorem redactList_fixed (s : List Char) : redactList (redactList s) = redactList s := by
  have hd1 : isDigitC '[' = false := by decide
  simp only [redactList]
  set t1 := runSub matchPhone10 redTok s.length s with ht1
  set t2 := runSub matchPhone7 redTok t1.length t1 with ht2
  set t3 := runSub matchIp ipTok t2.length t2 with ht3
  set u := runSub4 emailTok t3.length none t3 with hu
  have h10t1 : hasMatch matchPhone10 t1 = false := by
    rw [ht1]
    exact hasMatch_runSub_self matchPhone10 redTok matchPhone10_bound
      (tokBlocked _ matchPhone10_head_block redTok redTok_noDigit)
      (fun w x z n h => matchPhone10_trans w (redTok ++ x) z '[' rfl hd1 (by decide) n h)
      s.length s rfl s.length (le_refl _)
  have h10t2 : hasMatch matchPhone10 t2 = false := by
    rw [ht2]
    exact hasMatch_runSub_preserve matchPhone10 matchPhone7 redTok matchPhone7_bound
      (tokBlocked _ matchPhone10_head_block redTok redTok_noDigit)
      (fun w x z n h => matchPhone10_trans w (redTok ++ x) z '[' rfl hd1 (by decide) n h)
      t1.length t1 rfl t1.length (le_refl _) h10t1
  have h7t2 : hasMatch matchPhone7 t2 = false := by
    rw [ht2]
    exact hasMatch_runSub_self matchPhone7 redTok matchPhone7_bound
      (tokBlocked _ matchPhone7_head_block redTok redTok_noDigit)
      (fun w x z n h => matchPhone7_trans w (redTok ++ x) z '[' rfl hd1 (by decide) n h)
      t1.length t1 rfl t1.length (le_refl _)
  have h10t3 : hasMatch matchPhone10 t3 = false := by
    rw [ht3]
    exact hasMatch_runSub_preserve matchPhone10 matchIp ipTok matchIp_bound
      (tokBlocked _ matchPhone10_head_block ipTok ipTok_noDigit)
      (fun w x z n h => matchPhone10_trans w (ipTok ++ x) z '[' rfl hd1 (by decide) n h)
      t2.length t2 rfl t2.length (le_refl _) h10t2
  have h7t3 : hasMatch matchPhone7 t3 = false := by
    rw [ht3]
    exact hasMatch_runSub_preserve matchPhone7 matchIp ipTok matchIp_bound
      (tokBlocked _ matchPhone7_head_block ipTok ipTok_noDigit)
      (fun w x z n h => matchPhone7_trans w (ipTok ++ x) z '[' rfl hd1 (by decide) n h)
      t2.length t2 rfl t2.length (le_refl _) h7t2
  have hIpt3 : hasMatch matchIp t3 = false := by
    rw [ht3]
    exact hasMatch_runSub_self matchIp ipTok matchIp_bound
      (tokBlocked _ matchIp_head_block ipTok ipTok_noDigit)
      (fun w x z n h => matchIp_trans w (ipTok ++ x) z '[' rfl hd1 (by decide) n h)
      t2.length t2 rfl t2.length (le_refl _)
  have h10u : hasMatch matchPhone10 u = false := by
    rw [hu]
    exact hasMatch_runSub4_preserve matchPhone10 emailTok
      (tokBlocked _ matchPhone10_head_block emailTok emailTok_noDigit)
      (fun w x z n h => matchPhone10_trans w (emailTok ++ x) z '[' rfl hd1 (by decide) n h)
      t3.length t3 rfl t3.length none (le_refl _) h10t3
  have h7u : hasMatch matchPhone7 u = false := by
    rw [hu]
    exact hasMatch_runSub4_preserve matchPhone7 emailTok
      (tokBlocked _ matchPhone7_head_block emailTok emailTok_noDigit)
      (fun w x z n h => matchPhone7_trans w (emailTok ++ x) z '[' rfl hd1 (by decide) n h)
      t3.length t3 rfl t3.length none (le_refl _) h7t3
  have hIpu : hasMatch matchIp u = false := by
    rw [hu]
    exact hasMatch_runSub4_preserve matchIp emailTok
      (tokBlocked _ matchIp_head_block emailTok emailTok_noDigit)
      (fun w x z n h => matchIp_trans w (emailTok ++ x) z '[' rfl hd1 (by decide) n h)
      t3.length t3 rfl t3.length none (le_refl _) hIpt3
  have hM4u : hasMatch4 none u = false := by
    rw [hu]
    exact hasMatch4_runSub4_self t3.length t3 rfl t3.length none none (le_refl _)
      (Or.inl rfl)
  rw [runSub_id _ _ _ _ h10u, runSub_id _ _ _ _ h7u, runSub_id _ _ _ _ hIpu]
  exact runSub4_id _ _ _ _ hM4u

/-- C10: the redaction is idempotent on every input: applying
redact_sensitive_data to an already-redacted string changes nothing — the
replacement tokens and the text left around them never form a new match for
any of the four patterns on a second application. -/
theorem c10_redact_idempotent (t : String) :
    redact_sensitive_data (redact_sensitive_data t) = redact_sensitive_data t := by
  simp only [redact_sensitive_data]
  show String.mk (redactList (redactList t.data)) = String.mk (redactList t.data)
  rw [redactList_fixed]
